import Mathlib

/-!
Verification of the configuration-resolution and TOC-assembly engine of
`robotframework_libtoc/libtoc.py`.

The Python code is shallowly embedded: strings are `List Char` (wrapped in
`String` at the interfaces), paths are plain strings manipulated by models of
the `os.path` functions actually used by the code, and every effectful
collaborator (the `robot.libdoc.libdoc` generator, `glob.glob`,
`importlib_resources`, `os.path.expandvars`) is a function parameter.
All definitions are executable and structurally recursive.
-/

namespace LibToc

/-- Model of Python's `str.isspace` class as used by the regex class `\s`
(ASCII part; config lines are ASCII-relevant here). -/
def isPyWS (c : Char) : Bool :=
  c = ' ' || c = '\t' || c = '\n' || c = '\r' || c = '\x0b' || c = '\x0c'

/-- Chars of `l` that remain after dropping leading whitespace. -/
def dropLeadWS (l : List Char) : List Char := l.dropWhile isPyWS

/-- Model of Python `str.strip()`: drop leading and trailing whitespace. -/
def stripChars (l : List Char) : List Char :=
  ((l.dropWhile isPyWS).reverse.dropWhile isPyWS).reverse

/-- Model of Python `str.strip()` on `String`. -/
def pyStrip (s : String) : String := ⟨stripChars s.data⟩

/-- Model of Python `str.lower()` (ASCII; marker comparison only involves
ASCII letters). -/
def pyLower (s : String) : String := ⟨s.data.map Char.toLower⟩

/-- Does `pat` occur at the head of `l`? (model of `str.startswith` /
regex literal matching). -/
def leadsWith : List Char → List Char → Bool
  | [], _ => true
  | _ :: _, [] => false
  | a :: pat, c :: l => a = c && leadsWith pat l

/-- Does `pat` occur anywhere in `l` (as a contiguous run)? -/
def hasRun : List Char → List Char → Bool
  | [], pat => pat.isEmpty
  | l@(_ :: r), pat => leadsWith pat l || hasRun r pat

/-- Number of positions of `l` at which `pat` occurs (occurrences counted at
every start position). -/
def countRuns : List Char → List Char → Nat
  | [], pat => if pat.isEmpty then 1 else 0
  | l@(_ :: r), pat => (if leadsWith pat l then 1 else 0) + countRuns r pat

/-- Split a char list at every occurrence of `sep`, Python `str.split(sep)`
style (`"a/b"` gives `[a, b]`, `""` gives `[[]]`). -/
def splitChar (sep : Char) : List Char → List (List Char)
  | [] => [[]]
  | c :: r =>
    let rest := splitChar sep r
    if c = sep then [] :: rest
    else
      match rest with
      | h :: t => (c :: h) :: t
      | [] => [[c]]

/-- Model of Python `str.split(sep, 1)` restricted to what the code needs:
split at the first occurrence of `sep`, `none` when `sep` is absent
(in which case the two-element tuple unpacking in the source raises
`ValueError`). -/
def splitOnce (sep : Char) : List Char → Option (List Char × List Char)
  | [] => none
  | c :: r =>
    if c = sep then some ([], r)
    else (splitOnce sep r).map (fun pr => (c :: pr.1, pr.2))

/-- Chars before the first occurrence of the two-char run `pat` in `l`
(the whole of `l` when `pat` is absent): model of `str.partition(pat)[0]`. -/
def beforeFirstRun (pat : List Char) : List Char → List Char
  | [] => []
  | c :: r => if leadsWith pat (c :: r) then [] else c :: beforeFirstRun pat r

/-- Chars of `l` before its last `'.'` (empty when there is no `'.'`):
model of `str.rpartition(".")[0]`. -/
def beforeLastDot : List Char → List Char
  | [] => []
  | c :: r =>
    if r.contains '.' then c :: beforeLastDot r
    else if c = '.' then []
    else []

/-- Chars of `l` after its last `'/'` (all of `l` when there is no `'/'`):
model of posix `os.path.basename`. -/
def lastSlashComp : List Char → List Char
  | [] => []
  | c :: r =>
    if c = '/' then lastSlashComp r
    else if r.contains '/' then lastSlashComp r
    else c :: r

/-- Chars of `l` up to and including its last `'/'` (empty when there is no
`'/'`): model of the directory part kept by `os.path` splitting. -/
def dirPre : List Char → List Char
  | [] => []
  | c :: r =>
    if r.contains '/' then c :: dirPre r
    else if c = '/' then ['/']
    else []

/-- Index of the last occurrence of `c` in `l`. -/
def rfindIdx (c : Char) : List Char → Option Nat
  | [] => none
  | a :: r =>
    match rfindIdx c r with
    | some i => some (i + 1)
    | none => if a = c then some 0 else none

/-- Root part of `os.path.splitext` on a single path component `name`
(CPython rule: `name` has an extension only when its last dot is preceded,
within the component, by at least one non-dot character). -/
def splitextRootName (name : List Char) : List Char :=
  if name.contains '.' && (beforeLastDot name).any (fun c => !(c = '.')) then
    beforeLastDot name
  else name

/-- Root part of `os.path.splitext` on a full posix path: the extension is
searched only in the final component. -/
def splitextRoot (l : List Char) : List Char :=
  dirPre l ++ splitextRootName (lastSlashComp l)

/-- Length of the `pathlib.PurePath.suffix` of a single component `name`
(nonzero only when the last dot is at an index `i` with `0 < i < len - 1`). -/
def nameSuffixLen (name : List Char) : Nat :=
  match rfindIdx '.' name with
  | none => 0
  | some i => if 0 < i ∧ i + 1 < name.length then name.length - i else 0

/-- Model of `pathlib.PurePath.with_suffix(suf)` on a single component. -/
def withSuffixName (name suf : List Char) : List Char :=
  if nameSuffixLen name = 0 then name ++ suf
  else name.take (name.length - nameSuffixLen name) ++ suf

/-- Model of `pathlib.PurePath.with_suffix(suf)` on a posix path string. -/
def withSuffixChars (l suf : List Char) : List Char :=
  dirPre l ++ withSuffixName (lastSlashComp l) suf

/-- Model of `PurePath.with_suffix` on `String`. -/
def pyWithSuffix (s suf : String) : String := ⟨withSuffixChars s.data suf.data⟩

/-- Model of posix `os.path.join(a, b)` for two arguments: `b` wins when it
is absolute, otherwise it is appended with a separator as needed. -/
def joinChars (a b : List Char) : List Char :=
  if leadsWith ['/'] b then b
  else if a = [] then b
  else if leadsWith ['/'] a.reverse then a ++ b
  else a ++ '/' :: b

/-- Model of posix `os.path.join` on `String`. -/
def pyJoin (a b : String) : String := ⟨joinChars a.data b.data⟩

/-- Model of posix `os.path.basename` on `String`. -/
def pyBasename (s : String) : String := ⟨lastSlashComp s.data⟩

/-- Nonempty `'/'`-separated components of a path (the filtering mirrors
CPython's `relpath`, which drops empty components). -/
def pathComps (s : String) : List (List Char) :=
  (splitChar '/' s.data).filter (fun c => !c.isEmpty)

/-- Drop the longest common prefix of two component lists, returning both
remainders (helper for `relpath`). -/
def dropCommon : List (List Char) → List (List Char) → List (List Char) × List (List Char)
  | p :: ps, b :: bs => if p = b then dropCommon ps bs else (p :: ps, b :: bs)
  | ps, bs => (ps, bs)

/-- Interpose `'/'` between components. -/
def joinComps : List (List Char) → List Char
  | [] => []
  | [c] => c
  | c :: r => c ++ '/' :: joinComps r

/-- Model of posix `os.path.relpath(p, base)` for already-absolute,
already-normalized paths (the only way the code calls it). -/
def pyRelpath (p base : String) : String :=
  let pr := dropCommon (pathComps p) (pathComps base)
  let parts := List.replicate pr.2.length ['.', '.'] ++ pr.1
  if parts.isEmpty then "." else ⟨joinComps parts⟩

/-! ## `read_config` -/

/-- The three config sections tracked by `read_config`'s `sections` dict. -/
inductive Sec where
  | paths
  | packages
  | libs
deriving DecidableEq

/-- Result of `read_config`: the three `values` lists, in insertion order. -/
structure Config where
  paths : List String
  packages : List String
  libs : List String
deriving DecidableEq

/-- Classification performed by the body of `read_config`'s line loop:
strip the line; empty lines and `#` comments are ignored, a line whose
lowercase form equals a section marker switches the current section, any
other line is a value (kept in stripped form). -/
inductive LineKind where
  | blank
  | comment
  | marker (sec : Sec)
  | value (v : String)
deriving DecidableEq

/-- The classification of one line, mirroring the loop body of
`read_config` (strip, emptiness test, `#` test, case-insensitive marker
lookup in dict order, fallthrough to value). -/
def lineKind (line : String) : LineKind :=
  let s := pyStrip line
  if s.data.length = 0 then .blank
  else if leadsWith ['#'] s.data then .comment
  else
    let low := pyLower s
    if low = "[paths]" then .marker .paths
    else if low = "[packages]" then .marker .packages
    else if low = "[libs]" ∨ low = "[libraries]" then .marker .libs
    else .value s

/-- Append a value to the list of the given section. -/
def Config.addTo (sec : Sec) (v : String) (c : Config) : Config :=
  match sec with
  | .paths => { c with paths := v :: c.paths }
  | .packages => { c with packages := v :: c.packages }
  | .libs => { c with libs := v :: c.libs }

/-- The line loop of `read_config`: `cur` is the `section_to_add` cursor
(`none` models the initial empty string, under which values are silently
dropped). Values are prepended to the result of the recursive call, which
reproduces the source's append-in-encounter-order. -/
def readConfigGo : Option Sec → List String → Config
  | _, [] => ⟨[], [], []⟩
  | cur, l :: ls =>
    match lineKind l with
    | .blank => readConfigGo cur ls
    | .comment => readConfigGo cur ls
    | .marker sec => readConfigGo (some sec) ls
    | .value v =>
      match cur with
      | none => readConfigGo none ls
      | some sec => (readConfigGo cur ls).addTo sec v

/-- Model of `read_config`, taking the config file's lines (file reading and
UTF-8 decoding are elided; each element is one line without its newline). -/
def readConfig (lines : List String) : Config := readConfigGo none lines

/-- The value lines of a block, in order: what `read_config` keeps from a
run of lines inside one section. -/
def valuesOf (ls : List String) : List String :=
  ls.filterMap fun l =>
    match lineKind l with
    | .value v => some v
    | _ => none

/-- Is a line recognized as a section marker? -/
def isMarkerLine (l : String) : Bool :=
  match lineKind l with
  | .marker _ => true
  | _ => false

/-! ## The rename regex of the libs stage

`re.compile(r'(.+)\s{2,}(?:AS|WITH NAME)\s{2,}(.+?)').fullmatch(s)` is
embedded as an explicit backtracking search. Group 1 is greedy, so prefix
lengths are tried from longest to shortest; after the prefix, `\s{2,}` is
greedy and the keyword starts with a non-whitespace character, so the
keyword can only be tested right after the maximal whitespace run; the
final `\s{2,}` backtracks from its maximal run until the lazy `(.+?)`
(which, under `fullmatch`, must swallow the whole remainder) is a nonempty
run of non-newline characters. -/

/-- The keyword alternative `AS`. -/
def kwAS : List Char := ['A', 'S']

/-- The keyword alternative `WITH NAME`. -/
def kwWN : List Char := ['W', 'I', 'T', 'H', ' ', 'N', 'A', 'M', 'E']

/-- Length of the maximal whitespace run at the head of `l`
(what the greedy `\s{2,}` consumes before a non-`\s` literal). -/
def wsRunLen : List Char → Nat
  | [] => 0
  | c :: r => if isPyWS c then wsRunLen r + 1 else 0

/-- Backtracking of the second `\s{2,}` against the lazy, end-anchored
`(.+?)`: try to cut `k` whitespace chars, then `k - 1`, ..., down to `2`,
and return the first nonempty newline-free remainder. -/
def pickTarget (l : List Char) : Nat → Option (List Char)
  | 0 => none
  | 1 => none
  | k + 2 =>
    let t := l.drop (k + 2)
    if t.isEmpty || t.contains '\n' then pickTarget l (k + 1) else some t

/-- Match `\s{2,}(?:AS|WITH NAME)\s{2,}(.+?)` (end-anchored) against `l`,
returning group 2. -/
def matchTail (l : List Char) : Option (List Char) :=
  let m := wsRunLen l
  if m < 2 then none
  else
    let rest := l.drop m
    if leadsWith kwAS rest then
      let after := rest.drop 2
      pickTarget after (wsRunLen after)
    else if leadsWith kwWN rest then
      let after := rest.drop 9
      pickTarget after (wsRunLen after)
    else none

/-- Greedy search over group-1 lengths `k, k-1, ..., 1`: the regex engine
commits to the longest prefix whose remainder matches the tail. Group 1 is
`.+`, so a prefix containing a newline is rejected. -/
def asMatchFrom (l : List Char) : Nat → Option (List Char × List Char)
  | 0 => none
  | k + 1 =>
    let p := l.take (k + 1)
    if p.contains '\n' then asMatchFrom l k
    else
      match matchTail (l.drop (k + 1)) with
      | some t => some (p, t)
      | none => asMatchFrom l k

/-- Model of `as_split.fullmatch(s)`: the pair `(group 1, group 2)` when
the whole string matches the rename regex. -/
def asFullmatch (l : List Char) : Option (List Char × List Char) :=
  asMatchFrom l l.length

/-- A resolved lib target: the import source handed to `libdoc`, the
optional display name, and the output path. -/
structure ResolvedLib where
  source : String
  display_name : Option String
  output_path : String
deriving DecidableEq

/-- The libs branch of `create_docs_for_dir` (lines 220-241) applied to one
environment-variable-substituted lib string `s`: on a regex match, the
source is replaced by group 1, the name is `os.path.basename` of group 2
and the target is `target_dir/<group 2>.html`; otherwise the name stays
unset and the target is `target_dir/<part before the first "::">.html`. -/
def resolveLib (target_dir s : String) : ResolvedLib :=
  match asFullmatch s.data with
  | some (p, t) =>
    ⟨⟨p⟩, some (pyBasename ⟨t⟩), pyJoin target_dir ⟨t ++ ".html".data⟩⟩
  | none =>
    ⟨s, none, pyJoin target_dir ⟨beforeFirstRun [':', ':'] s.data ++ ".html".data⟩⟩

/-! ## Output paths of the paths and packages stages -/

/-- Output path for a filesystem glob match (lines 170-173): join the
target dir with `relative_path.rpartition(".")[0] + ".html"`. -/
def pathOutput (target_dir rel : String) : String :=
  pyJoin target_dir ⟨beforeLastDot rel.data ++ ".html".data⟩

/-- Output path for a package glob match (lines 205-207): join the target
dir with `relative_path.with_suffix(".html")`. -/
def packageOutput (target_dir rel : String) : String :=
  pyJoin target_dir (pyWithSuffix rel ".html")

/-! ## `str.replace` and `str.format` (the brace subset)

`toc` escapes every brace of the template by doubling it, undoes the
doubling of exactly the runs `{{}}` that came from `{}` slots, and then
calls `.format(home_page_path, links, timestamp)`; `homepage` calls
`.format(timestamp)` directly, with no escaping. -/

/-- One pass of Python `str.replace(pat, rep)` (left-to-right,
non-overlapping). `skip` counts chars still owned by an already-replaced
occurrence. -/
def replaceGo (pat rep : List Char) : Nat → List Char → List Char
  | _, [] => []
  | skip + 1, _ :: r => replaceGo pat rep skip r
  | 0, c :: r =>
    if leadsWith pat (c :: r) then rep ++ replaceGo pat rep (pat.length - 1) r
    else c :: replaceGo pat rep 0 r

/-- Model of Python `str.replace(pat, rep)` for a nonempty `pat` (the only
way the code calls it). -/
def pyReplace (pat rep l : List Char) : List Char :=
  if pat.isEmpty then l else replaceGo pat rep 0 l

/-- Model of `str.format(args...)` restricted to the brace forms the code
can produce: `{{` and `}}` are literal braces, `{}` consumes the next
positional argument, and a lone brace is a formatting error (`none`,
modeling `ValueError`). Surplus arguments are ignored, as in Python. -/
def pyFormatGo : List (List Char) → List Char → Option (List Char)
  | _, [] => some []
  | _, [c] => if c = '{' ∨ c = '}' then none else some [c]
  | args, c :: d :: rest =>
    if c = '{' then
      if d = '{' then (pyFormatGo args rest).map (fun r => '{' :: r)
      else if d = '}' then
        match args with
        | [] => none
        | a :: tl => (pyFormatGo tl rest).map (fun r => a ++ r)
      else none
    else if c = '}' then
      if d = '}' then (pyFormatGo args rest).map (fun r => '}' :: r)
      else none
    else (pyFormatGo args (d :: rest)).map (fun r => c :: r)

/-- The brace-escaping pre-pass of `toc` (lines 29-34): double all braces,
then turn each `{{}}` back into the active slot `{}`. -/
def tocEscape (t : List Char) : List Char :=
  pyReplace ['{', '{', '}', '}'] ['{', '}']
    (pyReplace ['}'] ['}', '}'] (pyReplace ['{'] ['{', '{'] t))

/-- Doubling of one char under the escape pre-pass. -/
def encBrace (c : Char) : List Char :=
  if c = '{' then ['{', '{'] else if c = '}' then ['}', '}'] else [c]

/-- Apply a char expansion over a list. -/
def expandEach (f : Char → List Char) : List Char → List Char
  | [] => []
  | c :: r => f c ++ expandEach f r

/-- The result of doubling every brace of a list. -/
def dblBrace (l : List Char) : List Char := expandEach encBrace l

/-- Is a list free of both brace characters? -/
def braceFree : List Char → Bool
  | [] => true
  | c :: r => !(c = '{') && !(c = '}') && braceFree r

/-- Model of `toc(links, timestamp, home_page_path, template)` with the
template file's content passed directly: escape, then positional
substitution of the home page path, the links and the timestamp, in that
order. -/
def tocRender (template home links timestamp : String) : Option String :=
  (pyFormatGo [home.data, links.data, timestamp.data] (tocEscape template.data)).map
    fun l => ⟨l⟩

/-- Model of `homepage(timestamp, template)` with the template file's
content passed directly: raw positional substitution of the timestamp,
with no brace escaping. -/
def homepageRender (template timestamp : String) : Option String :=
  (pyFormatGo [timestamp.data] template.data).map fun l => ⟨l⟩

/-! ## `add_files_from_folder` and `create_toc`

The filesystem is a finite tree; `os.listdir` returns children in the
model's list order. All paths handled here are absolute and normalized, so
`os.path.abspath` is the identity and is elided. -/

/-- A directory entry: a file with contents, or a subdirectory. -/
inductive Entry where
  | file (name : String) (content : String)
  | dir (name : String) (children : List Entry)

/-- Name of an entry. -/
def entryName : Entry → String
  | .file n _ => n
  | .dir n _ => n

/-- The `<button class="collapsible">` line emitted before a non-root
folder (exact text of the source's triple-quoted literal, including its
trailing newline and indentation). -/
def collapsibleBtn (label : String) : String :=
  "<button class=\"collapsible\">" ++ label ++ "</button>\n        "

/-- The `<div class="collapsible_content">` line. -/
def collapsibleDivOpen : String := "<div class=\"collapsible_content\">\n        "

/-- The closing `</div>` line. -/
def collapsibleDivClose : String := "</div>\n    "

/-- One link line for an `.html` entry. -/
def linkEntry (href label : String) : String :=
  "<a class=\"link_not_selected\" href=\"" ++ href ++ "\" target=\"targetFrame\">"
    ++ label ++ "</a>\n            "

/-- Model of `add_files_from_folder(folder, base_dir_path, root)`:
`entries` are the children of `folder` (in `os.listdir` order),
`folderPath` its absolute path, `basePath` the link base. `fuel` bounds the
recursion depth and exceeds the tree depth in every use below. An item
whose name ends in `.html` becomes a link (its label is the
`os.path.splitext` root of the name), any other directory recurses with
`root := false`, and any other file is skipped. -/
def addFiles : Nat → List Entry → String → String → Bool → String
  | 0, _, _, _, _ => ""
  | fuel + 1, entries, folderPath, basePath, root =>
    let head :=
      if !root then collapsibleBtn (pyBasename folderPath) ++ collapsibleDivOpen
      else ""
    let body := String.join (entries.map fun item =>
      let nm := entryName item
      let itemPath := pyJoin folderPath nm
      if leadsWith ".html".data.reverse nm.data.reverse then
        linkEntry (pyRelpath itemPath basePath) ⟨splitextRoot nm.data⟩
      else
        match item with
        | .dir _ children => addFiles fuel children itemPath basePath false
        | .file _ _ => "")
    let tail := if !root then collapsibleDivClose else ""
    head ++ body ++ tail

/-- Children of the pre-existing `src` entry of a listing (empty when there
is none; a plain file named `src` is a precondition violation of
`os.makedirs` and is not modeled). -/
def srcChildrenOf (entries : List Entry) : List Entry :=
  match entries.find? (fun e => entryName e = "src") with
  | some (.dir _ ch) => ch
  | _ => []

/-- The children of `src` after `create_toc`'s move loop: anything already
in `src`, then every other top-level entry in listing order. -/
def movedEntries (entries : List Entry) : List Entry :=
  srcChildrenOf entries ++ entries.filter (fun e => !(entryName e = "src"))

/-- Write (create or overwrite) a file among a directory's entries. -/
def writeFileEntry (entries : List Entry) (nm content : String) : List Entry :=
  if entries.any (fun e => entryName e = nm) then
    entries.map fun e => if entryName e = nm then .file nm content else e
  else entries ++ [.file nm content]

/-- Model of `create_toc(html_docs_dir, toc_file, homepage_file, ...)`:
`entries` is the top-level listing of the output directory `dirPath`,
`ts` the formatted timestamp, and the two templates are passed as strings.
Steps, in source order: ensure `src`, move everything else into it, compute
the navigation markup over `src` (with the output directory as link base),
then write the rendered homepage into `src`, then write the rendered TOC.
Returns the final top-level listing and the TOC text (`none` when a
`.format` call raises). -/
def createToc (fuel : Nat) (entries : List Entry) (dirPath : String)
    (tocFile homepageFile tocTemplate homepageTemplate ts : String) :
    Option (List Entry × String) :=
  let srcPath := pyJoin dirPath "src"
  let moved := movedEntries entries
  let homepagePath := pyJoin srcPath homepageFile
  let links := addFiles fuel moved srcPath dirPath true
  match homepageRender homepageTemplate ts with
  | none => none
  | some hp =>
    let srcFinal := writeFileEntry moved homepageFile hp
    match tocRender tocTemplate (pyRelpath homepagePath dirPath) links ts with
    | none => none
    | some tocText =>
      some (writeFileEntry [.dir "src" srcFinal] tocFile tocText, tocText)

/-! ## `create_docs_for_dir`

The external collaborators are parameters: `gen` is
`robot.libdoc.libdoc(source, target, name)` returning its exit code,
`globFS` is `glob.glob(pattern, recursive=True)`, `locate` is
`importlib_resources.files` (returning the package root, or `none` for
`ModuleNotFoundError`), `pkgGlob pkgRoot pat` lists the matches of
`package_path.glob(pat)` expressed relative to `package_path` (its matches
are always inside it, so `relative_to` is total), and `expandEnv` is
`os.path.expandvars`. -/

/-- One invocation of the doc generator. -/
structure LibdocCall where
  source : String
  target : String
  name : Option String
deriving DecidableEq

/-- What `create_docs_for_dir` produces: the generator invocations of each
stage in order, and the three broken lists it returns. -/
structure DocsResult where
  calls_files : List LibdocCall
  calls_packages : List LibdocCall
  calls_libs : List LibdocCall
  broken_files : List String
  broken_packages : List String
  broken_libs : List String
deriving DecidableEq

/-- The inner loop of the paths stage over the matches of one pattern
(lines 167-177). -/
def processMatches (gen : LibdocCall → Int) (resource_dir target_dir : String) :
    List String → List LibdocCall × List String
  | [] => ([], [])
  | rp :: rest =>
    let rel := pyRelpath rp resource_dir
    let call : LibdocCall := ⟨rp, pathOutput target_dir rel, none⟩
    let pr := processMatches gen resource_dir target_dir rest
    (call :: pr.1, if gen call > 0 then rel :: pr.2 else pr.2)

/-- The paths stage (lines 166-177): iterate the patterns, glob each one
joined under the resource dir. -/
def processPathPatterns (gen : LibdocCall → Int) (globFS : String → List String)
    (resource_dir target_dir : String) : List String → List LibdocCall × List String
  | [] => ([], [])
  | pat :: rest =>
    let here := processMatches gen resource_dir target_dir
      (globFS (pyJoin resource_dir pat))
    let there := processPathPatterns gen globFS resource_dir target_dir rest
    (here.1 ++ there.1, here.2 ++ there.2)

/-- The splitting loop of the packages stage (lines 184-185):
`package_definition.split(":", 1)` with two-element unpacking, which raises
`ValueError` on a line without a `":"`. -/
def splitPackages : List String → Except String (List (String × String))
  | [] => .ok []
  | l :: rest =>
    match splitOnce ':' l.data with
    | none => .error "ValueError: not enough values to unpack (expected 2, got 1)"
    | some pr =>
      (splitPackages rest).map fun r => (⟨pr.1⟩, ⟨pr.2⟩) :: r

/-- The grouping of package patterns by package name (lines 186-188):
a Python dict keyed by name, in first-insertion order, each value keeping
its patterns in order. -/
def groupPackages : List (String × String) → List (String × List String)
  | [] => []
  | (nm, pat) :: rest =>
    let grouped := groupPackages rest
    if grouped.any (fun g => g.1 = nm) then
      grouped.map fun g => if g.1 = nm then (g.1, pat :: g.2) else g
    else (nm, [pat]) :: grouped

/-- The per-file loop of the packages stage for one located package
(lines 201-213). -/
def processPkgFiles (gen : LibdocCall → Int) (pkgName pkgRoot target_dir : String) :
    List String → List LibdocCall × List String
  | [] => ([], [])
  | relp :: rest =>
    let rel := pyJoin pkgName relp
    let call : LibdocCall := ⟨pyJoin pkgRoot relp, packageOutput target_dir rel, none⟩
    let pr := processPkgFiles gen pkgName pkgRoot target_dir rest
    (call :: pr.1, if gen call > 0 then rel :: pr.2 else pr.2)

/-- The per-pattern loop of the packages stage for one located package
(lines 199-213). -/
def processPkgPatterns (gen : LibdocCall → Int) (pkgGlob : String → String → List String)
    (pkgName pkgRoot target_dir : String) : List String → List LibdocCall × List String
  | [] => ([], [])
  | pat :: rest =>
    let here := processPkgFiles gen pkgName pkgRoot target_dir (pkgGlob pkgRoot pat)
    let there := processPkgPatterns gen pkgGlob pkgName pkgRoot target_dir rest
    (here.1 ++ there.1, here.2 ++ there.2)

/-- The package-group loop (lines 190-213): a package that cannot be
located is recorded in `broken_packages` and the loop continues with the
remaining groups. -/
def processPackageGroups (gen : LibdocCall → Int) (locate : String → Option String)
    (pkgGlob : String → String → List String) (target_dir : String) :
    List (String × List String) → List LibdocCall × List String
  | [] => ([], [])
  | (nm, pats) :: rest =>
    let there := processPackageGroups gen locate pkgGlob target_dir rest
    match locate nm with
    | none => (there.1, nm :: there.2)
    | some root =>
      let here := processPkgPatterns gen pkgGlob nm root target_dir pats
      (here.1 ++ there.1, here.2 ++ there.2)

/-- The libs stage (lines 215-241): substitute environment variables, run
the rename regex, invoke the generator; on a nonzero exit code
`lib_str_with_resolved_vars` (the resolved source) is recorded. -/
def processLibs (gen : LibdocCall → Int) (expandEnv : String → String)
    (target_dir : String) : List String → List LibdocCall × List String
  | [] => ([], [])
  | lib :: rest =>
    let r := resolveLib target_dir (expandEnv lib)
    let call : LibdocCall := ⟨r.source, r.output_path, r.display_name⟩
    let pr := processLibs gen expandEnv target_dir rest
    (call :: pr.1, if gen call > 0 then r.source :: pr.2 else pr.2)

/-- Model of `create_docs_for_dir(resource_dir, output_dir, config_file)`,
with the config file's lines passed directly and `output_dir` assumed
absolute and normalized (so `os.path.abspath` is elided). An `.error`
models an uncaught exception. -/
def createDocsForDir (gen : LibdocCall → Int) (globFS : String → List String)
    (locate : String → Option String) (pkgGlob : String → String → List String)
    (expandEnv : String → String) (resource_dir output_dir : String)
    (configLines : List String) : Except String DocsResult :=
  let target_dir := pyJoin output_dir (pyBasename resource_dir)
  let cfg := readConfig configLines
  let files := processPathPatterns gen globFS resource_dir target_dir cfg.paths
  match splitPackages cfg.packages with
  | .error e => .error e
  | .ok ps =>
    let pkgs := processPackageGroups gen locate pkgGlob target_dir (groupPackages ps)
    let libs := processLibs gen expandEnv target_dir cfg.libs
    .ok ⟨files.1, pkgs.1, libs.1, files.2, pkgs.2, libs.2⟩

/-- Is an `Except` an `.ok`? -/
def isOkE {ε α : Type} : Except ε α → Bool
  | .ok _ => true
  | .error _ => false

/-! ## The final error accounting of `main` (lines 397-418) -/

/-- Model of the tail of `main`: given the aggregated broken lists and
whether the output directory exists after processing, return the process
exit status and whether "No docs were created!" was printed. The exit
status is `1` exactly when `sys.exit(1)` runs, and `0` when `main` falls
off the end. -/
def mainFinal (broken_files broken_packages broken_libs : List String)
    (outputDirExists : Bool) : Nat × Bool :=
  let errors := broken_files.length + broken_packages.length + broken_libs.length
  let step :=
    if outputDirExists then (errors, false)
    else if errors ≤ 0 then (1, true)
    else (errors, false)
  (if step.1 ≠ 0 then 1 else 0, step.2)

/-- Witness scenario: a generator failing on the first file and the first
lib while succeeding elsewhere. -/
def genW : LibdocCall → Int :=
  fun c => if c.source = "/r/res/a.x" ∨ c.source = "L1" then 1 else 0

/-- Witness scenario: a glob oracle with two matches for `*.x`. -/
def globW : String → List String :=
  fun s => if s = "/r/res/*.x" then ["/r/res/a.x", "/r/res/b.x"] else []

/-- Witness scenario: a config with two file matches and two libs. -/
def linesW : List String := ["[Paths]", "*.x", "[Libs]", "L1", "L2"]

/-! ## Specification-side definitions

These do not embed source code; they state, in the spec's own words,
properties that the claims compare against the embedded code. -/

/-- The spec's rename grammar, parametrized by the separator-character
class: `l` splits into a nonempty prefix, a separator run of length at
least 2, the keyword `AS` or `WITH NAME`, another separator run of length
at least 2, and a nonempty target name. -/
def RenameSplit (P : Char → Prop) (l p w1 kw w2 t : List Char) : Prop :=
  l = p ++ w1 ++ kw ++ w2 ++ t ∧ p ≠ [] ∧ t ≠ [] ∧
    2 ≤ w1.length ∧ 2 ≤ w2.length ∧
    (∀ c ∈ w1, P c) ∧ (∀ c ∈ w2, P c) ∧ (kw = kwAS ∨ kw = kwWN)

/-- The rename grammar with whitespace separators (matching the code's
`\s{2,}`). -/
def wsRename (l : List Char) : Prop :=
  ∃ p w1 kw w2 t, RenameSplit (fun c => isPyWS c = true) l p w1 kw w2 t

/-- The rename grammar exactly as the claim words it: the keyword is
surrounded by runs of 2-or-more space characters. -/
def spacesRename (l : List Char) : Prop :=
  ∃ p w1 kw w2 t, RenameSplit (fun c => c = ' ') l p w1 kw w2 t

/-- The output path for a path-pattern match as the claim words it: the
relative path with its original extension stripped (`os.path.splitext`
semantics: the extension lives in the final component) and `.html`
appended, rooted under the target dir. -/
def specPathOutput (target_dir rel : String) : String :=
  pyJoin target_dir ⟨splitextRoot rel.data ++ ".html".data⟩

/-- Does a path component carry an `os.path.splitext` extension? -/
def hasExtName (name : List Char) : Bool :=
  name.contains '.' && (beforeLastDot name).any (fun c => !(c = '.'))

end LibToc

namespace LibToc

/-! # Claims -/

/-! ## C9: exit status of `main` -/

/-- C9. The process exits with status 1 exactly when some failure was
recorded or the output directory does not exist at the end of the run,
with status 0 otherwise; with zero failures and no output directory it
prints "No docs were created!" and exits 1. -/
theorem mainFinal_exit_status (bf bp bl : List String) (d : Bool) :
    ((mainFinal bf bp bl d).1 = 1 ↔ (bf ≠ [] ∨ bp ≠ [] ∨ bl ≠ [] ∨ d = false))
    ∧ ((mainFinal bf bp bl d).1 = 0 ↔ (bf = [] ∧ bp = [] ∧ bl = [] ∧ d = true))
    ∧ (bf = [] → bp = [] → bl = [] → d = false → mainFinal bf bp bl d = (1, true)) := by
  cases d <;> cases bf <;> cases bp <;> cases bl <;> simp [mainFinal]

/-- Closed instance of `mainFinal_exit_status`: with no failures and no
output directory, the run prints the message and exits 1. -/
theorem mainFinal_exit_status_witness : mainFinal [] [] [] false = (1, true) :=
  (mainFinal_exit_status [] [] [] false).2.2 rfl rfl rfl rfl

/-! ## C4: uniqueness of output paths -/

/-- Two strings are equal iff their char lists are. -/
theorem strEq_iff_data {a b : String} : a = b ↔ a.data = b.data :=
  ⟨fun h => h ▸ rfl, fun h => by cases a; cases b; exact congrArg String.mk h⟩

/-- A list starting with a non-slash character is not slash-led. -/
theorem leadsSlash_cons_false {c : Char} (l : List Char) (hc : ¬ c = '/') :
    leadsWith ['/'] (c :: l) = false := by
  have hcc : ¬ ('/' = c) := fun hh => hc hh.symm
  simp [leadsWith, hcc]

/-- `beforeLastDot` never invents a leading slash. -/
theorem beforeLastDot_not_abs {l : List Char}
    (h : leadsWith ['/'] l = false) : leadsWith ['/'] (beforeLastDot l) = false := by
  cases l with
  | nil => simp [beforeLastDot, leadsWith]
  | cons c r =>
    simp only [leadsWith, Bool.and_eq_false_iff] at h
    unfold beforeLastDot
    by_cases hr : r.contains '.'
    · simp only [hr, if_pos]
      simpa [leadsWith] using h
    · simp only [hr]
      by_cases hc : c = '.' <;> simp [hc, leadsWith]

/-- Appending `.html` to a relative name keeps it relative. -/
theorem appendHtml_not_abs {l : List Char}
    (h : leadsWith ['/'] l = false) :
    leadsWith ['/'] (l ++ ".html".data) = false := by
  cases l with
  | nil => decide
  | cons c r =>
    simp only [leadsWith, Bool.and_eq_false_iff] at h ⊢
    simpa using h

/-- `os.path.join` is injective in its second argument on relative
second arguments. -/
theorem joinChars_cancel {a b1 b2 : List Char}
    (h1 : leadsWith ['/'] b1 = false) (h2 : leadsWith ['/'] b2 = false)
    (h : joinChars a b1 = joinChars a b2) : b1 = b2 := by
  unfold joinChars at h
  rw [h1, h2] at h
  simp only [Bool.false_eq_true, if_false] at h
  by_cases ha : a = []
  · simpa [ha] using h
  · simp only [ha, if_false] at h
    by_cases hs : leadsWith ['/'] a.reverse = true
    · rw [if_pos hs, if_pos hs] at h
      exact List.append_cancel_left h
    · rw [if_neg hs, if_neg hs] at h
      have := List.append_cancel_left h
      simpa using this

/-- The index returned by `rfindIdx` is inside the list. -/
theorem rfindIdx_lt_length {a : Char} {l : List Char} {i : Nat}
    (h : rfindIdx a l = some i) : i < l.length := by
  induction l generalizing i with
  | nil => simp [rfindIdx] at h
  | cons c r ih =>
    unfold rfindIdx at h
    rcases hr : rfindIdx a r with _ | j <;> rw [hr] at h
    · by_cases hc : c = a
      · rw [if_pos hc] at h
        injection h with h2
        simp only [List.length_cons]
        omega
      · rw [if_neg hc] at h
        exact absurd h (by simp)
    · injection h with h2
      have := ih hr
      simp only [List.length_cons]
      omega

/-- Definitional equation of `dirPre` at a cons. -/
theorem dirPre_cons (c : Char) (r : List Char) :
    dirPre (c :: r) =
      if r.contains '/' = true then c :: dirPre r
      else if c = '/' then ['/'] else [] := rfl

/-- Definitional equation of `lastSlashComp` at a cons. -/
theorem lastSlashComp_cons (c : Char) (r : List Char) :
    lastSlashComp (c :: r) =
      if c = '/' then lastSlashComp r
      else if r.contains '/' = true then lastSlashComp r
      else c :: r := rfl

/-- Definitional equation of `beforeLastDot` at a cons. -/
theorem beforeLastDot_cons (c : Char) (r : List Char) :
    beforeLastDot (c :: r) =
      if r.contains '.' = true then c :: beforeLastDot r
      else if c = '.' then [] else [] := rfl

/-- When a component has a `pathlib` suffix, the suffix is a proper part
of it. -/
theorem nameSuffixLen_sub_pos {name : List Char}
    (h0 : ¬ nameSuffixLen name = 0) :
    1 ≤ name.length - nameSuffixLen name := by
  unfold nameSuffixLen at h0 ⊢
  rcases hf : rfindIdx '.' name with _ | i <;> rw [hf] at h0
  · exact absurd rfl h0
  · have h0' : ¬ (if 0 < i ∧ i + 1 < name.length then name.length - i else 0) = 0 := h0
    show 1 ≤ name.length - (if 0 < i ∧ i + 1 < name.length then name.length - i else 0)
    by_cases hcond : 0 < i ∧ i + 1 < name.length
    · rw [if_pos hcond] at h0' ⊢
      omega
    · rw [if_neg hcond] at h0'
      exact absurd rfl h0'

/-- `with_suffix` on a slash-free nonempty component keeps its head. -/
theorem withSuffixName_head {c : Char} (r : List Char) (hc : ¬ c = '/') :
    leadsWith ['/'] (withSuffixName (c :: r) ".html".data) = false := by
  unfold withSuffixName
  by_cases h0 : nameSuffixLen (c :: r) = 0
  · rw [if_pos h0, List.cons_append]
    exact leadsSlash_cons_false _ hc
  · rw [if_neg h0]
    have hk := nameSuffixLen_sub_pos h0
    rcases hke : (c :: r).length - nameSuffixLen (c :: r) with _ | j
    · omega
    · rw [List.take_succ_cons, List.cons_append]
      exact leadsSlash_cons_false _ hc

/-- `with_suffix(".html")` never invents a leading slash. -/
theorem withSuffix_not_abs {l : List Char}
    (h : leadsWith ['/'] l = false) :
    leadsWith ['/'] (withSuffixChars l ".html".data) = false := by
  cases l with
  | nil => decide
  | cons c r =>
    have hc : ¬ c = '/' := by
      intro hcc
      subst hcc
      simp [leadsWith] at h
    unfold withSuffixChars
    by_cases hcr : r.contains '/' = true
    · rw [dirPre_cons, if_pos hcr, List.cons_append]
      exact leadsSlash_cons_false _ hc
    · rw [dirPre_cons, if_neg hcr, if_neg hc, lastSlashComp_cons, if_neg hc,
        if_neg hcr, List.nil_append]
      exact withSuffixName_head r hc

/-- C4 counterexample: two distinct relative paths (and two distinct
package-relative paths) whose derived output paths coincide, because
extension stripping merges them. -/
theorem output_path_collision :
    ("a.py" : String) ≠ "a.txt"
    ∧ pathOutput "/out/res" "a.py" = pathOutput "/out/res" "a.txt"
    ∧ ("pkg/a.py" : String) ≠ "pkg/a.txt"
    ∧ packageOutput "/out/res" "pkg/a.py" = packageOutput "/out/res" "pkg/a.txt" := by
  refine ⟨by decide, ?_, by decide, ?_⟩ <;> rfl

/-- C4 amended: within one generation pass, output paths of two
path-pattern matches are distinct whenever their relative paths are
distinct *after extension stripping* (`rpartition(".")` for the paths
stage, `with_suffix` for the packages stage); the relative paths
produced by `os.path.relpath` never start with a slash, which the
hypotheses record. -/
theorem output_path_unique (t r1 r2 : String)
    (h1 : leadsWith ['/'] r1.data = false) (h2 : leadsWith ['/'] r2.data = false) :
    (beforeLastDot r1.data ≠ beforeLastDot r2.data →
      pathOutput t r1 ≠ pathOutput t r2)
    ∧ (withSuffixChars r1.data ".html".data ≠ withSuffixChars r2.data ".html".data →
      packageOutput t r1 ≠ packageOutput t r2) := by
  constructor
  · intro hne heq
    apply hne
    have hd : (pathOutput t r1).data = (pathOutput t r2).data := by rw [heq]
    simp only [pathOutput, pyJoin] at hd
    have := joinChars_cancel
      (appendHtml_not_abs (beforeLastDot_not_abs h1))
      (appendHtml_not_abs (beforeLastDot_not_abs h2)) hd
    exact List.append_cancel_right this
  · intro hne heq
    apply hne
    have hd : (packageOutput t r1).data = (packageOutput t r2).data := by rw [heq]
    simp only [packageOutput, pyJoin, pyWithSuffix] at hd
    exact joinChars_cancel (withSuffix_not_abs h1) (withSuffix_not_abs h2) hd

/-- Closed instance of `output_path_unique` at two relative paths with
distinct stems. -/
theorem output_path_unique_witness :
    leadsWith ['/'] "a.py".data = false ∧ leadsWith ['/'] "b.txt".data = false ∧
    ((beforeLastDot "a.py".data ≠ beforeLastDot "b.txt".data →
        pathOutput "/out/res" "a.py" ≠ pathOutput "/out/res" "b.txt")
      ∧ (withSuffixChars "a.py".data ".html".data ≠
          withSuffixChars "b.txt".data ".html".data →
        packageOutput "/out/res" "a.py" ≠ packageOutput "/out/res" "b.txt")) :=
  ⟨by decide, by decide,
    output_path_unique "/out/res" "a.py" "b.txt" (by decide) (by decide)⟩

/-! ## C5: output path of a path-pattern match -/

/-- Members of the final path component are members of the path. -/
theorem mem_of_mem_lastSlashComp {x : Char} {l : List Char}
    (h : x ∈ lastSlashComp l) : x ∈ l := by
  induction l with
  | nil => simp [lastSlashComp] at h
  | cons c r ih =>
    rw [lastSlashComp_cons] at h
    by_cases hc : c = '/'
    · rw [if_pos hc] at h
      exact List.mem_cons_of_mem c (ih h)
    · rw [if_neg hc] at h
      by_cases hcr : r.contains '/' = true
      · rw [if_pos hcr] at h
        exact List.mem_cons_of_mem c (ih h)
      · rwa [if_neg hcr] at h

/-- A false boolean is not true. -/
theorem ne_true_of_eq_false {b : Bool} (h : b = false) : ¬ b = true := by simp [h]

/-- `List.contains` agrees with membership on chars. -/
theorem containsChar_iff {l : List Char} {c : Char} :
    l.contains c = true ↔ c ∈ l := List.elem_iff

/-- Negative form of `containsChar_iff`. -/
theorem containsChar_false {l : List Char} {c : Char} :
    l.contains c = false ↔ c ∉ l := by
  rw [Bool.eq_false_iff]
  exact not_congr containsChar_iff

/-- The final path component never contains a slash. -/
theorem lastSlashComp_no_slash (l : List Char) :
    ('/' : Char) ∉ lastSlashComp l := by
  induction l with
  | nil => simp [lastSlashComp]
  | cons c r ih =>
    rw [lastSlashComp_cons]
    by_cases hc : c = '/'
    · rwa [if_pos hc]
    · rw [if_neg hc]
      by_cases hcr : r.contains '/' = true
      · rwa [if_pos hcr]
      · rw [if_neg hcr]
        intro hm
        rcases List.mem_cons.1 hm with hh | hh
        · exact hc hh.symm
        · exact hcr (containsChar_iff.2 hh)

/-- On a slash-free list, `dirPre` is empty. -/
theorem dirPre_eq_nil_of_no_slash {l : List Char}
    (h : l.contains '/' = false) : dirPre l = [] := by
  cases l with
  | nil => rfl
  | cons c r =>
    have h' := containsChar_false.1 h
    have hc : ¬ c = '/' := fun hcc => h' (by simp [hcc])
    have hr : r.contains '/' = false :=
      containsChar_false.2 fun hm => h' (List.mem_cons_of_mem c hm)
    rw [dirPre_cons, if_neg (ne_true_of_eq_false hr), if_neg hc]

/-- Chars before the last dot are chars of the list. -/
theorem mem_of_mem_beforeLastDot {x : Char} {l : List Char}
    (h : x ∈ beforeLastDot l) : x ∈ l := by
  induction l with
  | nil => simp [beforeLastDot] at h
  | cons c r ih =>
    rw [beforeLastDot_cons] at h
    by_cases hr : r.contains '.' = true
    · rw [if_pos hr] at h
      rcases List.mem_cons.1 h with hh | hh
      · exact hh ▸ List.mem_cons_self c r
      · exact List.mem_cons_of_mem c (ih hh)
    · rw [if_neg hr] at h
      by_cases hc : c = '.' <;> simp [hc] at h

/-- Appending a slash-free tail does not change `dirPre`. -/
theorem dirPre_append_no_slash {d x : List Char}
    (hx : x.contains '/' = false) : dirPre (d ++ x) = dirPre d := by
  have hx' : ('/' : Char) ∉ x := containsChar_false.1 hx
  induction d with
  | nil => simpa using dirPre_eq_nil_of_no_slash hx
  | cons c r ih =>
    rw [List.cons_append, dirPre_cons, dirPre_cons]
    by_cases hr : r.contains '/' = true
    · have h2 : (r ++ x).contains '/' = true :=
        containsChar_iff.2 (List.mem_append_left x (containsChar_iff.1 hr))
      rw [if_pos h2, if_pos hr, ih]
    · have hrm : ('/' : Char) ∉ r := fun hm => hr (containsChar_iff.2 hm)
      have h2 : (r ++ x).contains '/' = false :=
        containsChar_false.2 fun hm => (List.mem_append.1 hm).elim hrm hx'
      rw [if_neg (ne_true_of_eq_false h2), if_neg hr]

/-- `dirPre` keeps a slash when there is one. -/
theorem dirPre_contains_slash {l : List Char} (h : l.contains '/' = true) :
    (dirPre l).contains '/' = true := by
  induction l with
  | nil => simp at h
  | cons c r ih =>
    rw [dirPre_cons]
    by_cases hr : r.contains '/' = true
    · rw [if_pos hr, List.contains_cons, ih hr, Bool.or_true]
    · have hc : c = '/' := by
        have hm := containsChar_iff.1 h
        rcases List.mem_cons.1 hm with hh | hh
        · exact hh.symm
        · exact absurd (containsChar_iff.2 hh) hr
      rw [if_neg hr, if_pos hc]
      decide

/-- `dirPre` is idempotent. -/
theorem dirPre_idem (l : List Char) : dirPre (dirPre l) = dirPre l := by
  induction l with
  | nil => rfl
  | cons c r ih =>
    rw [dirPre_cons]
    by_cases hr : r.contains '/' = true
    · rw [if_pos hr, dirPre_cons, if_pos (dirPre_contains_slash hr), ih]
    · rw [if_neg hr]
      by_cases hc : c = '/'
      · rw [if_pos hc]
        decide
      · rw [if_neg hc]
        rfl

/-- When the final component has a dot, `rpartition(".")` splits inside it:
the stem is the directory part followed by the component's stem. -/
theorem beforeLastDot_split {l : List Char}
    (h : (lastSlashComp l).contains '.' = true) :
    beforeLastDot l = dirPre l ++ beforeLastDot (lastSlashComp l) := by
  induction l with
  | nil => simp [lastSlashComp] at h
  | cons c r ih =>
    by_cases hc : c = '/'
    · subst hc
      rw [lastSlashComp_cons, if_pos rfl] at h ⊢
      have hdr : r.contains '.' = true :=
        containsChar_iff.2 (mem_of_mem_lastSlashComp (containsChar_iff.1 h))
      rw [beforeLastDot_cons, if_pos hdr, ih h, dirPre_cons]
      by_cases hrs : r.contains '/' = true
      · rw [if_pos hrs, List.cons_append]
      · rw [if_neg hrs, if_pos rfl, dirPre_eq_nil_of_no_slash (Bool.eq_false_iff.2 hrs),
          List.nil_append, List.singleton_append]
    · rw [lastSlashComp_cons, if_neg hc] at h ⊢
      by_cases hrs : r.contains '/' = true
      · rw [if_pos hrs] at h ⊢
        have hdr : r.contains '.' = true :=
          containsChar_iff.2 (mem_of_mem_lastSlashComp (containsChar_iff.1 h))
        rw [beforeLastDot_cons, if_pos hdr, ih h, dirPre_cons, if_pos hrs,
          List.cons_append]
      · rw [if_neg hrs] at h ⊢
        rw [dirPre_cons, if_neg hrs, if_neg hc, List.nil_append]

/-- C5 counterexample: a dotted directory name sends the last-dot split
into the directory part, so the claimed output path (extension stripped
from the file name, subdirectory structure preserved) differs from the
code's output path. -/
theorem path_output_structure_loss :
    pathOutput "/out/res" "sub.v2/readme" = "/out/res/sub.html"
    ∧ specPathOutput "/out/res" "sub.v2/readme" = "/out/res/sub.v2/readme.html"
    ∧ pathOutput "/out/res" "sub.v2/readme" ≠ specPathOutput "/out/res" "sub.v2/readme" := by
  exact ⟨rfl, rfl, by decide⟩

/-- C5 amended: whenever the final component of the match's relative path
carries an extension (`os.path.splitext` sense), the code's output path is
exactly the claimed one — extension stripped, `.html` appended, rooted
under the target dir — and the relative subdirectory structure is
preserved. -/
theorem path_output_preserves_structure (t rel : String)
    (h : hasExtName (lastSlashComp rel.data) = true) :
    pathOutput t rel = specPathOutput t rel
    ∧ dirPre (splitextRoot rel.data) = dirPre rel.data := by
  have hdot : (lastSlashComp rel.data).contains '.' = true := by
    unfold hasExtName at h
    rw [Bool.and_eq_true] at h
    exact h.1
  have hroot : splitextRootName (lastSlashComp rel.data) =
      beforeLastDot (lastSlashComp rel.data) := by
    unfold splitextRootName
    unfold hasExtName at h
    rw [if_pos h]
  constructor
  · have hb : beforeLastDot rel.data = splitextRoot rel.data := by
      rw [splitextRoot, hroot, beforeLastDot_split hdot]
    unfold pathOutput specPathOutput
    rw [hb]
  · rw [splitextRoot, hroot]
    have hns : (beforeLastDot (lastSlashComp rel.data)).contains '/' = false :=
      containsChar_false.2 fun hm =>
        lastSlashComp_no_slash _ (mem_of_mem_beforeLastDot hm)
    rw [dirPre_append_no_slash hns, dirPre_idem]

/-- Closed instance of `path_output_preserves_structure` at a path with
one subdirectory and a real extension. -/
theorem path_output_preserves_structure_witness :
    hasExtName (lastSlashComp "sub/x.py".data) = true
    ∧ (pathOutput "/out/res" "sub/x.py" = specPathOutput "/out/res" "sub/x.py"
      ∧ dirPre (splitextRoot "sub/x.py".data) = dirPre "sub/x.py".data) :=
  ⟨by decide, path_output_preserves_structure "/out/res" "sub/x.py" (by decide)⟩

/-! ## C2: the config parser -/

/-- Definitional equation of `readConfigGo` at a cons. -/
theorem readConfigGo_cons (cur : Option Sec) (l : String) (ls : List String) :
    readConfigGo cur (l :: ls) =
      match lineKind l with
      | .blank => readConfigGo cur ls
      | .comment => readConfigGo cur ls
      | .marker sec => readConfigGo (some sec) ls
      | .value v =>
        match cur with
        | none => readConfigGo none ls
        | some sec => (readConfigGo cur ls).addTo sec v := rfl

/-- Before any marker has been seen, every line is dropped. -/
theorem readConfigGo_none_skip {pre : List String} (rest : List String)
    (hpre : ∀ l ∈ pre, isMarkerLine l = false) :
    readConfigGo none (pre ++ rest) = readConfigGo none rest := by
  induction pre with
  | nil => rfl
  | cons l ls ih =>
    have hl := hpre l (List.mem_cons_self l ls)
    rw [List.cons_append]
    rcases hk : lineKind l with _ | _ | sec | v
    · simp only [readConfigGo_cons, hk]
      exact ih fun x hx => hpre x (List.mem_cons_of_mem l hx)
    · simp only [readConfigGo_cons, hk]
      exact ih fun x hx => hpre x (List.mem_cons_of_mem l hx)
    · simp [isMarkerLine, hk] at hl
    · simp only [readConfigGo_cons, hk]
      exact ih fun x hx => hpre x (List.mem_cons_of_mem l hx)

/-- Inside a section, a marker-free block contributes exactly its value
lines, in order, to that section. -/
theorem readConfigGo_section (sec : Sec) (b rest : List String)
    (hb : ∀ l ∈ b, isMarkerLine l = false) :
    readConfigGo (some sec) (b ++ rest) =
      (valuesOf b).foldr (fun v c => c.addTo sec v)
        (readConfigGo (some sec) rest) := by
  induction b with
  | nil => rfl
  | cons l ls ih =>
    have hl := hb l (List.mem_cons_self l ls)
    have ih' := ih fun x hx => hb x (List.mem_cons_of_mem l hx)
    rw [List.cons_append]
    rcases hk : lineKind l with _ | _ | s | v
    · simp only [readConfigGo_cons, hk, ih', valuesOf, List.filterMap_cons]
    · simp only [readConfigGo_cons, hk, ih', valuesOf, List.filterMap_cons]
    · simp [isMarkerLine, hk] at hl
    · simp only [readConfigGo_cons, hk, ih', valuesOf, List.filterMap_cons,
        List.foldr_cons]

/-- `readConfigGo_section` for the final block of the file. -/
theorem readConfigGo_section_last (sec : Sec) (b : List String)
    (hb : ∀ l ∈ b, isMarkerLine l = false) :
    readConfigGo (some sec) b =
      (valuesOf b).foldr (fun v c => c.addTo sec v) ⟨[], [], []⟩ := by
  have h := readConfigGo_section sec b [] hb
  rwa [List.append_nil] at h

/-- Folding paths values onto a config prepends them to `paths`. -/
theorem foldr_addTo_paths (vs : List String) (c : Config) :
    vs.foldr (fun v cc => cc.addTo .paths v) c =
      ⟨vs ++ c.paths, c.packages, c.libs⟩ := by
  induction vs with
  | nil => rfl
  | cons v vs ih => rw [List.foldr_cons, ih]; simp [Config.addTo]

/-- Folding packages values onto a config prepends them to `packages`. -/
theorem foldr_addTo_packages (vs : List String) (c : Config) :
    vs.foldr (fun v cc => cc.addTo .packages v) c =
      ⟨c.paths, vs ++ c.packages, c.libs⟩ := by
  induction vs with
  | nil => rfl
  | cons v vs ih => rw [List.foldr_cons, ih]; simp [Config.addTo]

/-- Folding libs values onto a config prepends them to `libs`. -/
theorem foldr_addTo_libs (vs : List String) (c : Config) :
    vs.foldr (fun v cc => cc.addTo .libs v) c =
      ⟨c.paths, c.packages, vs ++ c.libs⟩ := by
  induction vs with
  | nil => rfl
  | cons v vs ih => rw [List.foldr_cons, ih]; simp [Config.addTo]

/-- C2. A well-formed config — anything before the first marker, then a
paths marker, a marker-free block, a packages marker, a block, a libs
marker and a final block — parses to exactly the value lines of the three
blocks, in order. Marker lines are recognized case-insensitively after
trimming (hypotheses `hm1`-`hm3` are stated via `lineKind`, which strips
and lowercases) and are discarded; blanks and `#` comments inside blocks
are ignored; every line before the first marker is silently dropped. -/
theorem read_config_wellformed (pre b1 b2 b3 : List String) (m1 m2 m3 : String)
    (hm1 : lineKind m1 = LineKind.marker .paths)
    (hm2 : lineKind m2 = LineKind.marker .packages)
    (hm3 : lineKind m3 = LineKind.marker .libs)
    (hpre : ∀ l ∈ pre, isMarkerLine l = false)
    (hb1 : ∀ l ∈ b1, isMarkerLine l = false)
    (hb2 : ∀ l ∈ b2, isMarkerLine l = false)
    (hb3 : ∀ l ∈ b3, isMarkerLine l = false) :
    readConfig (pre ++ m1 :: (b1 ++ m2 :: (b2 ++ m3 :: b3))) =
      ⟨valuesOf b1, valuesOf b2, valuesOf b3⟩ := by
  unfold readConfig
  rw [readConfigGo_none_skip _ hpre]
  simp only [readConfigGo_cons, hm1]
  rw [readConfigGo_section .paths _ _ hb1]
  simp only [readConfigGo_cons, hm2]
  rw [readConfigGo_section .packages _ _ hb2]
  simp only [readConfigGo_cons, hm3]
  rw [readConfigGo_section_last .libs _ hb3,
    foldr_addTo_libs, foldr_addTo_packages, foldr_addTo_paths]
  simp

/-- Closed instance of `read_config_wellformed`: a config with a stray
line before the first marker, odd-cased padded markers, a blank line and
a comment; the parser keeps exactly the value lines. -/
theorem read_config_wellformed_witness :
    lineKind "  [PATHS]  " = LineKind.marker .paths
    ∧ readConfig (["stray value"] ++ "  [PATHS]  " ::
        (["*.resource", "", "# note"] ++ "[Packages]" ::
          (["p1: *.py"] ++ "[LIBRARIES]" :: ["Lib1", "Lib2  AS  X"]))) =
      ⟨valuesOf ["*.resource", "", "# note"], valuesOf ["p1: *.py"],
        valuesOf ["Lib1", "Lib2  AS  X"]⟩ :=
  ⟨by decide,
    read_config_wellformed ["stray value"] ["*.resource", "", "# note"]
      ["p1: *.py"] ["Lib1", "Lib2  AS  X"] "  [PATHS]  " "[Packages]" "[LIBRARIES]"
      (by decide) (by decide) (by decide) (by decide) (by decide) (by decide)
      (by decide)⟩

/-! ## C10: packages lines must contain a colon -/

/-- `split(":", 1)` succeeds exactly on lines containing a colon. -/
theorem splitOnce_isSome_iff_contains {l : List Char} :
    (splitOnce ':' l).isSome = l.contains ':' := by
  induction l with
  | nil => rfl
  | cons c r ih =>
    unfold splitOnce
    by_cases hc : c = ':'
    · rw [if_pos hc, List.contains_cons]
      subst hc
      simp
    · rw [if_neg hc, List.contains_cons]
      have : (':' == c) = false := by
        simp only [beq_eq_false_iff_ne, ne_eq]
        exact fun hh => hc hh.symm
      rw [this, Bool.false_or, ← ih]
      cases splitOnce ':' r <;> rfl

/-- A packages section whose lines all contain `':'` splits cleanly. -/
theorem splitPackages_ok_of_colon {ls : List String}
    (h : ∀ l ∈ ls, l.data.contains ':' = true) :
    ∃ ps, splitPackages ls = .ok ps := by
  induction ls with
  | nil => exact ⟨[], rfl⟩
  | cons l rest ih =>
    have hl := h l (List.mem_cons_self l rest)
    obtain ⟨ps, hps⟩ := ih fun x hx => h x (List.mem_cons_of_mem l hx)
    have hs : (splitOnce ':' l.data).isSome = true := by
      rw [splitOnce_isSome_iff_contains]
      exact hl
    rcases ho : splitOnce ':' l.data with _ | pr
    · rw [ho] at hs
      cases hs
    · exact ⟨(⟨pr.1⟩, ⟨pr.2⟩) :: ps, by
        unfold splitPackages
        rw [ho, hps]
        rfl⟩

/-- A packages section with a colon-free line makes the splitting loop
raise `ValueError`. -/
theorem splitPackages_error_of_no_colon {ls : List String}
    (h : ∃ l ∈ ls, l.data.contains ':' = false) :
    splitPackages ls =
      .error "ValueError: not enough values to unpack (expected 2, got 1)" := by
  induction ls with
  | nil => simp at h
  | cons l rest ih =>
    unfold splitPackages
    rcases ho : splitOnce ':' l.data with _ | pr
    · rfl
    · have hl : l.data.contains ':' = true := by
        rw [← splitOnce_isSome_iff_contains, ho]
        rfl
      obtain ⟨x, hx, hxc⟩ := h
      rcases List.mem_cons.1 hx with hh | hh
      · subst hh
        rw [hl] at hxc
        cases hxc
      · rw [ih ⟨x, hh, hxc⟩]
        rfl

/-- C10. `create_docs_for_dir` requires every packages line to contain a
`':'`: with a colon-free line present it raises `ValueError` from the
two-element unpacking — uniformly in all collaborators, so before any
package lookup or generation — and with every line containing `':'` that
error branch is unreachable and the whole pass returns normally. -/
theorem createDocsForDir_packages_colon (gen : LibdocCall → Int)
    (globFS : String → List String) (locate : String → Option String)
    (pkgGlob : String → String → List String) (expandEnv : String → String)
    (rd od : String) (lines : List String) :
    ((∃ l ∈ (readConfig lines).packages, l.data.contains ':' = false) →
      createDocsForDir gen globFS locate pkgGlob expandEnv rd od lines =
        .error "ValueError: not enough values to unpack (expected 2, got 1)")
    ∧ ((∀ l ∈ (readConfig lines).packages, l.data.contains ':' = true) →
      isOkE (createDocsForDir gen globFS locate pkgGlob expandEnv rd od lines)
        = true) := by
  constructor
  · intro h
    simp only [createDocsForDir]
    rw [splitPackages_error_of_no_colon h]
  · intro h
    obtain ⟨ps, hps⟩ := splitPackages_ok_of_colon h
    simp only [createDocsForDir]
    rw [hps]
    rfl

/-- Closed instance of `createDocsForDir_packages_colon`: a config whose
packages section holds the line "nocolon" aborts the pass with
`ValueError` whatever the collaborators do. -/
theorem createDocsForDir_packages_colon_witness :
    (∃ l ∈ (readConfig ["[Packages]", "nocolon"]).packages,
        l.data.contains ':' = false)
    ∧ createDocsForDir (fun _ => 0) (fun _ => []) (fun _ => none)
        (fun _ _ => []) (fun s => s) "/res/r" "/out" ["[Packages]", "nocolon"] =
      .error "ValueError: not enough values to unpack (expected 2, got 1)" :=
  ⟨by decide,
    (createDocsForDir_packages_colon (fun _ => 0) (fun _ => []) (fun _ => none)
      (fun _ _ => []) (fun s => s) "/res/r" "/out" ["[Packages]", "nocolon"]).1
      (by decide)⟩

/-! ## C7: failure isolation -/

/-- The invocations of the paths stage do not depend on the generator's
exit codes. -/
theorem processMatches_calls_indep (gen gen' : LibdocCall → Int)
    (rd td : String) (ms : List String) :
    (processMatches gen rd td ms).1 = (processMatches gen' rd td ms).1 := by
  induction ms with
  | nil => rfl
  | cons rp rest ih => simp only [processMatches, ih]

/-- Same, lifted over all path patterns. -/
theorem processPathPatterns_calls_indep (gen gen' : LibdocCall → Int)
    (globFS : String → List String) (rd td : String) (pats : List String) :
    (processPathPatterns gen globFS rd td pats).1 =
      (processPathPatterns gen' globFS rd td pats).1 := by
  induction pats with
  | nil => rfl
  | cons p rest ih =>
    simp only [processPathPatterns, ih, processMatches_calls_indep gen gen']

/-- The broken-files list is exactly the failed invocations' relative
paths, in order. -/
theorem processMatches_broken (gen : LibdocCall → Int)
    (rd td : String) (ms : List String) :
    (processMatches gen rd td ms).2 = (processMatches gen rd td ms).1.filterMap
      (fun c => if gen c > 0 then some (pyRelpath c.source rd) else none) := by
  induction ms with
  | nil => rfl
  | cons rp rest ih =>
    simp only [processMatches, List.filterMap_cons]
    by_cases hg : gen ⟨rp, pathOutput td (pyRelpath rp rd), none⟩ > 0
    · simp only [if_pos hg, ih]
    · simp only [if_neg hg, ih]

/-- Same, lifted over all path patterns. -/
theorem processPathPatterns_broken (gen : LibdocCall → Int)
    (globFS : String → List String) (rd td : String) (pats : List String) :
    (processPathPatterns gen globFS rd td pats).2 =
      (processPathPatterns gen globFS rd td pats).1.filterMap
        (fun c => if gen c > 0 then some (pyRelpath c.source rd) else none) := by
  induction pats with
  | nil => rfl
  | cons p rest ih =>
    simp only [processPathPatterns, List.filterMap_append, ih,
      processMatches_broken gen rd td]

/-- The invocations of the libs stage do not depend on the generator's
exit codes. -/
theorem processLibs_calls_indep (gen gen' : LibdocCall → Int)
    (expandEnv : String → String) (td : String) (libs : List String) :
    (processLibs gen expandEnv td libs).1 =
      (processLibs gen' expandEnv td libs).1 := by
  induction libs with
  | nil => rfl
  | cons lib rest ih => simp only [processLibs, ih]

/-- The broken-libs list is exactly the failed invocations' (resolved)
sources, in order. -/
theorem processLibs_broken (gen : LibdocCall → Int)
    (expandEnv : String → String) (td : String) (libs : List String) :
    (processLibs gen expandEnv td libs).2 =
      (processLibs gen expandEnv td libs).1.filterMap
        (fun c => if gen c > 0 then some c.source else none) := by
  induction libs with
  | nil => rfl
  | cons lib rest ih =>
    simp only [processLibs, List.filterMap_cons]
    by_cases hg : gen ⟨(resolveLib td (expandEnv lib)).source,
        (resolveLib td (expandEnv lib)).output_path,
        (resolveLib td (expandEnv lib)).display_name⟩ > 0
    · simp only [if_pos hg, ih]
    · simp only [if_neg hg, ih]

/-- The invocations of the packages stage, for the files of one located
package, do not depend on exit codes. -/
theorem processPkgFiles_calls_indep (gen gen' : LibdocCall → Int)
    (nm root td : String) (fs : List String) :
    (processPkgFiles gen nm root td fs).1 =
      (processPkgFiles gen' nm root td fs).1 := by
  induction fs with
  | nil => rfl
  | cons x rest ih => simp only [processPkgFiles, ih]

/-- Same, over the patterns of one located package. -/
theorem processPkgPatterns_calls_indep (gen gen' : LibdocCall → Int)
    (pkgGlob : String → String → List String) (nm root td : String)
    (pats : List String) :
    (processPkgPatterns gen pkgGlob nm root td pats).1 =
      (processPkgPatterns gen' pkgGlob nm root td pats).1 := by
  induction pats with
  | nil => rfl
  | cons p rest ih =>
    simp only [processPkgPatterns, ih, processPkgFiles_calls_indep gen gen']

/-- Same, over all package groups. -/
theorem processPackageGroups_calls_indep (gen gen' : LibdocCall → Int)
    (locate : String → Option String) (pkgGlob : String → String → List String)
    (td : String) (groups : List (String × List String)) :
    (processPackageGroups gen locate pkgGlob td groups).1 =
      (processPackageGroups gen' locate pkgGlob td groups).1 := by
  induction groups with
  | nil => rfl
  | cons g rest ih =>
    rcases g with ⟨nm, pats⟩
    simp only [processPackageGroups, ih]
    rcases locate nm with _ | root
    · rfl
    · simp only [processPkgPatterns_calls_indep gen gen']

/-- A failed package-file invocation is recorded under its
package-relative name. -/
theorem processPkgFiles_broken_mem (gen : LibdocCall → Int)
    (nm root td : String) (fs : List String) {relp : String}
    (h : relp ∈ fs)
    (hg : gen ⟨pyJoin root relp, packageOutput td (pyJoin nm relp), none⟩ > 0) :
    pyJoin nm relp ∈ (processPkgFiles gen nm root td fs).2 := by
  induction fs with
  | nil => cases h
  | cons x rest ih =>
    simp only [processPkgFiles]
    rcases List.mem_cons.1 h with hh | hh
    · subst hh
      rw [if_pos hg]
      exact List.mem_cons_self _ _
    · by_cases hgx : gen ⟨pyJoin root x, packageOutput td (pyJoin nm x), none⟩ > 0
      · rw [if_pos hgx]
        exact List.mem_cons_of_mem _ (ih hh)
      · rw [if_neg hgx]
        exact ih hh

/-- Lift of `processPkgFiles_broken_mem` over the patterns of a package. -/
theorem processPkgPatterns_broken_mem (gen : LibdocCall → Int)
    (pkgGlob : String → String → List String) (nm root td : String)
    (pats : List String) {pat relp : String}
    (hp : pat ∈ pats) (hr : relp ∈ pkgGlob root pat)
    (hg : gen ⟨pyJoin root relp, packageOutput td (pyJoin nm relp), none⟩ > 0) :
    pyJoin nm relp ∈ (processPkgPatterns gen pkgGlob nm root td pats).2 := by
  induction pats with
  | nil => cases hp
  | cons p rest ih =>
    simp only [processPkgPatterns]
    rcases List.mem_cons.1 hp with hh | hh
    · subst hh
      exact List.mem_append_left _ (processPkgFiles_broken_mem gen nm root td _ hr hg)
    · exact List.mem_append_right _ (ih hh)

/-- A located package with a failing file is recorded; the group loop
continues around it. -/
theorem processPackageGroups_broken_mem_located (gen : LibdocCall → Int)
    (locate : String → Option String) (pkgGlob : String → String → List String)
    (td : String) (groups : List (String × List String))
    {nm root pat relp : String} {pats : List String}
    (hgrp : (nm, pats) ∈ groups) (hloc : locate nm = some root)
    (hp : pat ∈ pats) (hr : relp ∈ pkgGlob root pat)
    (hg : gen ⟨pyJoin root relp, packageOutput td (pyJoin nm relp), none⟩ > 0) :
    pyJoin nm relp ∈ (processPackageGroups gen locate pkgGlob td groups).2 := by
  induction groups with
  | nil => cases hgrp
  | cons g rest ih =>
    rcases g with ⟨nm2, pats2⟩
    simp only [processPackageGroups]
    rcases List.mem_cons.1 hgrp with hh | hh
    · injection hh with h1 h2
      subst h1
      subst h2
      rw [hloc]
      exact List.mem_append_left _
        (processPkgPatterns_broken_mem gen pkgGlob nm root td pats hp hr hg)
    · rcases hl2 : locate nm2 with _ | root2
      · exact List.mem_cons_of_mem _ (ih hh)
      · exact List.mem_append_right _ (ih hh)

/-- A package that cannot be located is recorded under its name; the
group loop continues around it. -/
theorem processPackageGroups_broken_mem_notfound (gen : LibdocCall → Int)
    (locate : String → Option String) (pkgGlob : String → String → List String)
    (td : String) (groups : List (String × List String)) {nm : String}
    (hgrp : nm ∈ groups.map Prod.fst) (hloc : locate nm = none) :
    nm ∈ (processPackageGroups gen locate pkgGlob td groups).2 := by
  induction groups with
  | nil => cases hgrp
  | cons g rest ih =>
    rcases g with ⟨nm2, pats2⟩
    simp only [processPackageGroups]
    rcases List.mem_cons.1 hgrp with hh | hh
    · rcases hh
      rw [hloc]
      exact List.mem_cons_self _ _
    · rcases hl2 : locate nm2 with _ | root2
      · exact List.mem_cons_of_mem _ (ih hh)
      · exact List.mem_append_right _ (ih hh)

/-- C7. Under the packages-line precondition, the generation pass returns
normally for every generator; the set of invocations of each stage does
not depend on the generator's exit codes, so every remaining target is
still attempted after any failure; the broken-files and broken-libs lists
are exactly the failed invocations' identifiers; a package that cannot be
located, and a located package file whose generation fails, are recorded
in the packages failure list. -/
theorem createDocsForDir_isolation
    (gen gen' : LibdocCall → Int) (globFS : String → List String)
    (locate : String → Option String) (pkgGlob : String → String → List String)
    (expandEnv : String → String) (rd od : String) (lines : List String)
    (ps : List (String × String))
    (hsplit : splitPackages (readConfig lines).packages = .ok ps) :
    ∃ r r',
      createDocsForDir gen globFS locate pkgGlob expandEnv rd od lines = .ok r
      ∧ createDocsForDir gen' globFS locate pkgGlob expandEnv rd od lines = .ok r'
      ∧ r.calls_files = r'.calls_files
      ∧ r.calls_packages = r'.calls_packages
      ∧ r.calls_libs = r'.calls_libs
      ∧ r.broken_files = r.calls_files.filterMap
          (fun c => if gen c > 0 then some (pyRelpath c.source rd) else none)
      ∧ r.broken_libs = r.calls_libs.filterMap
          (fun c => if gen c > 0 then some c.source else none)
      ∧ (∀ nm, nm ∈ (groupPackages ps).map Prod.fst → locate nm = none →
          nm ∈ r.broken_packages)
      ∧ (∀ nm pats root pat relp,
          (nm, pats) ∈ groupPackages ps → locate nm = some root →
          pat ∈ pats → relp ∈ pkgGlob root pat →
          gen ⟨pyJoin root relp,
            packageOutput (pyJoin od (pyBasename rd)) (pyJoin nm relp), none⟩ > 0 →
          pyJoin nm relp ∈ r.broken_packages) := by
  have hok : createDocsForDir gen globFS locate pkgGlob expandEnv rd od lines =
      .ok ⟨(processPathPatterns gen globFS rd (pyJoin od (pyBasename rd))
              (readConfig lines).paths).1,
            (processPackageGroups gen locate pkgGlob (pyJoin od (pyBasename rd))
              (groupPackages ps)).1,
            (processLibs gen expandEnv (pyJoin od (pyBasename rd))
              (readConfig lines).libs).1,
            (processPathPatterns gen globFS rd (pyJoin od (pyBasename rd))
              (readConfig lines).paths).2,
            (processPackageGroups gen locate pkgGlob (pyJoin od (pyBasename rd))
              (groupPackages ps)).2,
            (processLibs gen expandEnv (pyJoin od (pyBasename rd))
              (readConfig lines).libs).2⟩ := by
    simp only [createDocsForDir]
    rw [hsplit]
  have hok' : createDocsForDir gen' globFS locate pkgGlob expandEnv rd od lines =
      .ok ⟨(processPathPatterns gen' globFS rd (pyJoin od (pyBasename rd))
              (readConfig lines).paths).1,
            (processPackageGroups gen' locate pkgGlob (pyJoin od (pyBasename rd))
              (groupPackages ps)).1,
            (processLibs gen' expandEnv (pyJoin od (pyBasename rd))
              (readConfig lines).libs).1,
            (processPathPatterns gen' globFS rd (pyJoin od (pyBasename rd))
              (readConfig lines).paths).2,
            (processPackageGroups gen' locate pkgGlob (pyJoin od (pyBasename rd))
              (groupPackages ps)).2,
            (processLibs gen' expandEnv (pyJoin od (pyBasename rd))
              (readConfig lines).libs).2⟩ := by
    simp only [createDocsForDir]
    rw [hsplit]
  refine ⟨_, _, hok, hok', ?_, ?_, ?_, ?_, ?_, ?_, ?_⟩
  · exact processPathPatterns_calls_indep gen gen' globFS rd _ _
  · exact processPackageGroups_calls_indep gen gen' locate pkgGlob _ _
  · exact processLibs_calls_indep gen gen' expandEnv _ _
  · exact processPathPatterns_broken gen globFS rd _ _
  · exact processLibs_broken gen expandEnv _ _
  · intro nm hnm hloc
    exact processPackageGroups_broken_mem_notfound gen locate pkgGlob _ _ hnm hloc
  · intro nm pats root pat relp hgrp hloc hp hr hg
    exact processPackageGroups_broken_mem_located gen locate pkgGlob _ _
      hgrp hloc hp hr hg

/-- Closed instance of `createDocsForDir_isolation`: with the first file
and the first lib failing, the pass still returns normally, attempts the
same invocations as an all-success run, and records exactly the failed
identifiers. -/
theorem createDocsForDir_isolation_witness :
    splitPackages (readConfig linesW).packages = .ok ([] : List (String × String))
    ∧ ∃ r r',
        createDocsForDir genW globW (fun _ => none) (fun _ _ => []) (fun s => s)
          "/r/res" "/out" linesW = .ok r
        ∧ createDocsForDir (fun _ => 0) globW (fun _ => none) (fun _ _ => [])
            (fun s => s) "/r/res" "/out" linesW = .ok r'
        ∧ r.calls_files = r'.calls_files
        ∧ r.calls_packages = r'.calls_packages
        ∧ r.calls_libs = r'.calls_libs
        ∧ r.broken_files = r.calls_files.filterMap
            (fun c => if genW c > 0 then some (pyRelpath c.source "/r/res") else none)
        ∧ r.broken_libs = r.calls_libs.filterMap
            (fun c => if genW c > 0 then some c.source else none)
        ∧ (∀ nm, nm ∈ (groupPackages ([] : List (String × String))).map Prod.fst →
            (fun _ => (none : Option String)) nm = none → nm ∈ r.broken_packages)
        ∧ (∀ nm pats root pat relp,
            (nm, pats) ∈ groupPackages ([] : List (String × String)) →
            (fun _ => (none : Option String)) nm = some root →
            pat ∈ pats → relp ∈ (fun _ _ => ([] : List String)) root pat →
            genW ⟨pyJoin root relp,
              packageOutput (pyJoin "/out" (pyBasename "/r/res")) (pyJoin nm relp),
              none⟩ > 0 →
            pyJoin nm relp ∈ r.broken_packages) :=
  ⟨rfl, createDocsForDir_isolation genW (fun _ => 0) globW (fun _ => none)
    (fun _ _ => []) (fun s => s) "/r/res" "/out" linesW [] rfl⟩

/-! ## C6: tree assembly -/

/-- String append is associative. -/
theorem strAppend_assoc (a b c : String) : a ++ b ++ c = a ++ (b ++ c) := by
  apply strEq_iff_data.2
  show (a.data ++ b.data) ++ c.data = a.data ++ (b.data ++ c.data)
  exact List.append_assoc _ _ _

/-- The empty string is a left unit. -/
theorem strEmpty_append (s : String) : "" ++ s = s := by
  apply strEq_iff_data.2
  rfl

/-- The empty string is a right unit. -/
theorem strAppend_empty (s : String) : s ++ "" = s := by
  apply strEq_iff_data.2
  show s.data ++ [] = s.data
  exact List.append_nil _

set_option maxRecDepth 100000 in
/-- C6. General shape: at every non-root directory the assembler emits a
collapsible wrapper labeled with the directory's base name around the
same contents markup the root form would produce, while the root emits no
wrapper. Concrete instance (`src/a.html`, `src/sub/b.html`, link base the
output directory `/docs`): exactly one collapsible wrapper, labeled
`sub`; exactly two links, with hrefs `src/a.html` and `src/sub/b.html`
relative to `/docs` (not to `src`) and labels `a` and `b` (extension
stripped); exactly one collapsible-content block. -/
theorem tree_assembly_nesting :
    (∀ (n : Nat) (es : List Entry) (fp b : String),
      addFiles (n + 1) es fp b false =
        collapsibleBtn (pyBasename fp) ++ (collapsibleDivOpen
          ++ (addFiles (n + 1) es fp b true ++ collapsibleDivClose)))
    ∧ countRuns (addFiles 2 [.file "a.html" "x", .dir "sub" [.file "b.html" "y"]]
        "/docs/src" "/docs" true).data "<button class=\"collapsible\">".data = 1
    ∧ hasRun (addFiles 2 [.file "a.html" "x", .dir "sub" [.file "b.html" "y"]]
        "/docs/src" "/docs" true).data (collapsibleBtn "sub").data = true
    ∧ countRuns (addFiles 2 [.file "a.html" "x", .dir "sub" [.file "b.html" "y"]]
        "/docs/src" "/docs" true).data "<a class=\"link_not_selected\"".data = 2
    ∧ hasRun (addFiles 2 [.file "a.html" "x", .dir "sub" [.file "b.html" "y"]]
        "/docs/src" "/docs" true).data (linkEntry "src/a.html" "a").data = true
    ∧ hasRun (addFiles 2 [.file "a.html" "x", .dir "sub" [.file "b.html" "y"]]
        "/docs/src" "/docs" true).data (linkEntry "src/sub/b.html" "b").data = true
    ∧ countRuns (addFiles 2 [.file "a.html" "x", .dir "sub" [.file "b.html" "y"]]
        "/docs/src" "/docs" true).data "<div class=\"collapsible_content\">".data
      = 1 := by
  refine ⟨?_, by decide, by decide, by decide, by decide, by decide, by decide⟩
  intro n es fp b
  show (if !false then collapsibleBtn (pyBasename fp) ++ collapsibleDivOpen else "")
      ++ String.join (es.map _) ++ (if !false then collapsibleDivClose else "") = _
  rw [show (!false) = true from rfl, if_pos rfl, if_pos rfl]
  show _ = collapsibleBtn (pyBasename fp) ++ (collapsibleDivOpen
    ++ (((if !true then collapsibleBtn (pyBasename fp) ++ collapsibleDivOpen
          else "") ++ String.join (es.map _)
        ++ (if !true then collapsibleDivClose else "")) ++ collapsibleDivClose))
  rw [show (!true) = false from rfl, if_neg (by simp), if_neg (by simp),
    strEmpty_append, strAppend_empty, strAppend_assoc, strAppend_assoc]

/-! ## C3: step order of `create_toc` -/

/-- C3 amended: `create_toc` creates `src`, moves the pre-existing
top-level entries into it, then runs the tree assembler over `src` (with
the output directory as link base) *before* writing the rendered homepage
into `src`, and finally writes the rendered TOC into the output
directory. The navigation markup embedded in the TOC is therefore
computed from the moved entries without the homepage file. -/
theorem createToc_order (fuel : Nat) (entries : List Entry)
    (dirPath tocFile homepageFile tocT hpT ts hp tc : String)
    (hhp : homepageRender hpT ts = some hp)
    (htc : tocRender tocT
        (pyRelpath (pyJoin (pyJoin dirPath "src") homepageFile) dirPath)
        (addFiles fuel (movedEntries entries) (pyJoin dirPath "src") dirPath true)
        ts = some tc) :
    createToc fuel entries dirPath tocFile homepageFile tocT hpT ts =
      some (writeFileEntry
        [.dir "src" (writeFileEntry (movedEntries entries) homepageFile hp)]
        tocFile tc, tc) := by
  simp only [createToc]
  rw [hhp, htc]

/-- C3 counterexample: with one pre-existing `a.html` and simple
templates, the finished output does contain `src/homepage.html`, but the
TOC's embedded navigation markup has no link to it — the walk ran before
the homepage was written, contradicting the claimed order and the claimed
presence of the homepage link. -/
theorem createToc_walk_precedes_homepage :
    createToc 2 [.file "a.html" "x"] "/docs" "keyword_docs.html" "homepage.html"
        "[\x7b\x7d|\x7b\x7d|\x7b\x7d]" "HP \x7b\x7d" "TS" =
      some ([.dir "src" [.file "a.html" "x", .file "homepage.html" "HP TS"],
             .file "keyword_docs.html"
               ("[src/homepage.html|" ++ linkEntry "src/a.html" "a" ++ "|TS]")],
            "[src/homepage.html|" ++ linkEntry "src/a.html" "a" ++ "|TS]")
    ∧ hasRun ("[src/homepage.html|" ++ linkEntry "src/a.html" "a" ++ "|TS]").data
        "href=\"src/homepage.html\"".data = false :=
  ⟨rfl, by decide⟩

/-- Closed instance of `createToc_order` at the counterexample scenario. -/
theorem createToc_order_witness :
    homepageRender "HP \x7b\x7d" "TS" = some "HP TS"
    ∧ tocRender "[\x7b\x7d|\x7b\x7d|\x7b\x7d]"
        (pyRelpath (pyJoin (pyJoin "/docs" "src") "homepage.html") "/docs")
        (addFiles 2 (movedEntries [.file "a.html" "x"]) (pyJoin "/docs" "src")
          "/docs" true) "TS"
      = some ("[src/homepage.html|" ++ linkEntry "src/a.html" "a" ++ "|TS]")
    ∧ createToc 2 [.file "a.html" "x"] "/docs" "keyword_docs.html" "homepage.html"
        "[\x7b\x7d|\x7b\x7d|\x7b\x7d]" "HP \x7b\x7d" "TS" =
      some (writeFileEntry
        [.dir "src" (writeFileEntry (movedEntries [.file "a.html" "x"])
          "homepage.html" "HP TS")] "keyword_docs.html"
        ("[src/homepage.html|" ++ linkEntry "src/a.html" "a" ++ "|TS]"),
        "[src/homepage.html|" ++ linkEntry "src/a.html" "a" ++ "|TS]") :=
  ⟨rfl, rfl,
    createToc_order 2 [.file "a.html" "x"] "/docs" "keyword_docs.html"
      "homepage.html" "[\x7b\x7d|\x7b\x7d|\x7b\x7d]" "HP \x7b\x7d" "TS" "HP TS"
      ("[src/homepage.html|" ++ linkEntry "src/a.html" "a" ++ "|TS]") rfl rfl⟩

/-! ## C8: template escaping -/

/-- Definitional equation of `expandEach` at a cons. -/
theorem expandEach_cons (f : Char → List Char) (c : Char) (r : List Char) :
    expandEach f (c :: r) = f c ++ expandEach f r := rfl

/-- Definitional equation of `replaceGo` in scan state at a cons. -/
theorem replaceGo_zero_cons (pat rep : List Char) (c : Char) (r : List Char) :
    replaceGo pat rep 0 (c :: r) =
      if leadsWith pat (c :: r) = true then
        rep ++ replaceGo pat rep (pat.length - 1) r
      else c :: replaceGo pat rep 0 r := rfl

/-- Definitional equation of `replaceGo` in skip state at a cons. -/
theorem replaceGo_skip_cons (pat rep : List Char) (k : Nat) (c : Char)
    (r : List Char) :
    replaceGo pat rep (k + 1) (c :: r) = replaceGo pat rep k r := rfl

/-- A single-char `str.replace` is a char-by-char expansion. -/
theorem pyReplace_single (a : Char) (rep : List Char) (l : List Char) :
    pyReplace [a] rep l =
      expandEach (fun c => if c = a then rep else [c]) l := by
  have key : ∀ l, replaceGo [a] rep 0 l =
      expandEach (fun c => if c = a then rep else [c]) l := by
    intro l
    induction l with
    | nil => rfl
    | cons c r ih =>
      rw [expandEach_cons]
      unfold replaceGo
      by_cases hc : c = a
      · have hl : leadsWith [a] (c :: r) = true := by
          simp [leadsWith, hc.symm]
        rw [if_pos hl]
        show rep ++ replaceGo [a] rep 0 r = _
        rw [ih, if_pos hc]
      · have hl : leadsWith [a] (c :: r) = false := by
          have hac : ¬ (a = c) := fun hh => hc hh.symm
          simp [leadsWith, hac]
        rw [if_neg (ne_true_of_eq_false hl), ih, if_neg hc, List.singleton_append]
  unfold pyReplace
  rw [if_neg (by simp)]
  exact key l

/-- `expandEach` distributes over append. -/
theorem expandEach_append (f : Char → List Char) (x y : List Char) :
    expandEach f (x ++ y) = expandEach f x ++ expandEach f y := by
  induction x with
  | nil => rfl
  | cons c r ih =>
    rw [List.cons_append, expandEach_cons, expandEach_cons, ih, List.append_assoc]

/-- Definitional equation of `dblBrace` at a cons. -/
theorem dblBrace_cons (c : Char) (r : List Char) :
    dblBrace (c :: r) = encBrace c ++ dblBrace r := rfl

/-- The two single-char replaces of `toc` double every brace. -/
theorem dblBrace_eq_two_replaces (l : List Char) :
    pyReplace ['}'] ['}', '}'] (pyReplace ['{'] ['{', '{'] l) = dblBrace l := by
  rw [pyReplace_single, pyReplace_single]
  induction l with
  | nil => rfl
  | cons c r ih =>
    rw [expandEach_cons, expandEach_append, ih, dblBrace_cons]
    congr 1
    show expandEach _ (if c = '{' then ['{', '{'] else [c]) = encBrace c
    by_cases h1 : c = '{'
    · rw [if_pos h1]
      subst h1
      rfl
    · rw [if_neg h1]
      by_cases h2 : c = '}'
      · subst h2
        rfl
      · rw [expandEach_cons, if_neg h2]
        show [c] ++ expandEach _ [] = _
        rw [show expandEach (fun c => if c = '}' then ['}', '}'] else [c]) [] = []
            from rfl, List.append_nil]
        unfold encBrace
        rw [if_neg h1, if_neg h2]

/-- A doubled string whose source does not start with `'}'` cannot start
with `"}}"`. -/
theorem dbl_no_close_head {r : List Char}
    (h : leadsWith ['}'] r = false) :
    leadsWith ['}', '}'] (dblBrace r) = false := by
  cases r with
  | nil => rfl
  | cons d r2 =>
    have hd : ¬ d = '}' := by
      intro hdd
      simp [leadsWith, hdd] at h
    rw [dblBrace_cons]
    unfold encBrace
    by_cases h1 : d = '{'
    · rw [if_pos h1]
      rfl
    · rw [if_neg h1, if_neg hd, List.singleton_append]
      have hdc : ¬ ('}' = d) := fun hh => hd hh.symm
      simp [leadsWith, hdc]

/-- On the doubling of a slot-free string the `"{{}}" -> "{}"` replace is
the identity, at each of the scan states the scan can reach. -/
theorem replaceGo_pat4_dbl {l : List Char} (h : hasRun l ['{', '}'] = false) :
    replaceGo ['{', '{', '}', '}'] ['{', '}'] 0 (dblBrace l) = dblBrace l
    ∧ replaceGo ['{', '{', '}', '}'] ['{', '}'] 0 ('{' :: dblBrace l)
      = '{' :: dblBrace l
    ∧ replaceGo ['{', '{', '}', '}'] ['{', '}'] 0 ('}' :: dblBrace l)
      = '}' :: dblBrace l := by
  induction l with
  | nil => exact ⟨rfl, rfl, rfl⟩
  | cons c r ih =>
    have hsplit : leadsWith ['{', '}'] (c :: r) = false
        ∧ hasRun r ['{', '}'] = false := by
      unfold hasRun at h
      exact Bool.or_eq_false_iff.1 h
    obtain ⟨hl, hr⟩ := hsplit
    obtain ⟨ih1, ih2, ih3⟩ := ih hr
    by_cases h1 : c = '{'
    · subst h1
      have hclose : leadsWith ['}'] r = false := by
        simpa [leadsWith] using hl
      have hdd : dblBrace ('{' :: r) = '{' :: '{' :: dblBrace r := rfl
      rw [hdd]
      have g1 : replaceGo ['{', '{', '}', '}'] ['{', '}'] 0
          ('{' :: '{' :: dblBrace r) = '{' :: '{' :: dblBrace r := by
        have hnope : leadsWith ['{', '{', '}', '}'] ('{' :: '{' :: dblBrace r)
            = false := by
          simp [leadsWith, dbl_no_close_head hclose]
        unfold replaceGo
        rw [if_neg (ne_true_of_eq_false hnope)]
        show '{' :: replaceGo ['{', '{', '}', '}'] ['{', '}'] 0 ('{' :: dblBrace r)
          = _
        rw [ih2]
      refine ⟨g1, ?_, ?_⟩
      · unfold replaceGo
        rw [if_neg (ne_true_of_eq_false (by simp [leadsWith]))]
        show '{' :: replaceGo ['{', '{', '}', '}'] ['{', '}'] 0
          ('{' :: '{' :: dblBrace r) = _
        rw [g1]
      · unfold replaceGo
        rw [if_neg (ne_true_of_eq_false (by simp [leadsWith]))]
        show '}' :: replaceGo ['{', '{', '}', '}'] ['{', '}'] 0
          ('{' :: '{' :: dblBrace r) = _
        rw [g1]
    · by_cases h2 : c = '}'
      · subst h2
        have hdd : dblBrace ('}' :: r) = '}' :: '}' :: dblBrace r := rfl
        rw [hdd]
        have g1 : replaceGo ['{', '{', '}', '}'] ['{', '}'] 0
            ('}' :: '}' :: dblBrace r) = '}' :: '}' :: dblBrace r := by
          unfold replaceGo
          rw [if_neg (ne_true_of_eq_false (by simp [leadsWith]))]
          show '}' :: replaceGo ['{', '{', '}', '}'] ['{', '}'] 0
            ('}' :: dblBrace r) = _
          rw [ih3]
        refine ⟨g1, ?_, ?_⟩
        · unfold replaceGo
          rw [if_neg (ne_true_of_eq_false (by simp [leadsWith]))]
          show '{' :: replaceGo ['{', '{', '}', '}'] ['{', '}'] 0
            ('}' :: '}' :: dblBrace r) = _
          rw [g1]
        · unfold replaceGo
          rw [if_neg (ne_true_of_eq_false (by simp [leadsWith]))]
          show '}' :: replaceGo ['{', '{', '}', '}'] ['{', '}'] 0
            ('}' :: '}' :: dblBrace r) = _
          rw [g1]
      · have hdd : dblBrace (c :: r) = c :: dblBrace r := by
          rw [dblBrace_cons]
          unfold encBrace
          rw [if_neg h1, if_neg h2, List.singleton_append]
        rw [hdd]
        have hno : ¬ ('{' = c) := fun hh => h1 hh.symm
        have g1 : replaceGo ['{', '{', '}', '}'] ['{', '}'] 0
            (c :: dblBrace r) = c :: dblBrace r := by
          unfold replaceGo
          rw [if_neg (ne_true_of_eq_false (by simp [leadsWith, hno]))]
          show c :: replaceGo ['{', '{', '}', '}'] ['{', '}'] 0 (dblBrace r) = _
          rw [ih1]
        refine ⟨g1, ?_, ?_⟩
        · unfold replaceGo
          rw [if_neg (ne_true_of_eq_false (by simp [leadsWith, hno]))]
          show '{' :: replaceGo ['{', '{', '}', '}'] ['{', '}'] 0
            (c :: dblBrace r) = _
          rw [g1]
        · unfold replaceGo
          rw [if_neg (ne_true_of_eq_false (by simp [leadsWith]))]
          show '}' :: replaceGo ['{', '{', '}', '}'] ['{', '}'] 0
            (c :: dblBrace r) = _
          rw [g1]

/-- On a slot-free template the whole escape pre-pass is exactly the
brace doubling. -/
theorem tocEscape_noSlot {t : List Char} (h : hasRun t ['{', '}'] = false) :
    tocEscape t = dblBrace t := by
  unfold tocEscape
  rw [dblBrace_eq_two_replaces]
  unfold pyReplace
  rw [if_neg (by simp)]
  exact (replaceGo_pat4_dbl h).1

/-- Unpack `braceFree` at a cons. -/
theorem braceFree_cons_iff {c : Char} {r : List Char} :
    braceFree (c :: r) = true ↔
      (¬ c = '{' ∧ ¬ c = '}') ∧ braceFree r = true := by
  show (!(decide (c = '{')) && !(decide (c = '}')) && braceFree r) = true ↔ _
  simp [Bool.and_eq_true, and_assoc]

/-- Doubling is the identity on brace-free lists. -/
theorem dblBrace_braceFree {a : List Char} (ha : braceFree a = true) :
    dblBrace a = a := by
  induction a with
  | nil => rfl
  | cons c r ih =>
    obtain ⟨⟨h1, h2⟩, hr⟩ := braceFree_cons_iff.1 ha
    rw [dblBrace_cons, ih hr]
    unfold encBrace
    rw [if_neg h1, if_neg h2, List.singleton_append]

/-- The `"{{}}" -> "{}"` replace walks over a brace-free prefix. -/
theorem replaceGo_pat4_braceFree_front {a : List Char}
    (ha : braceFree a = true) (l : List Char) :
    replaceGo ['{', '{', '}', '}'] ['{', '}'] 0 (a ++ l) =
      a ++ replaceGo ['{', '{', '}', '}'] ['{', '}'] 0 l := by
  induction a with
  | nil => rfl
  | cons c a2 ih =>
    obtain ⟨⟨h1, h2⟩, ha2⟩ := braceFree_cons_iff.1 ha
    have hno : ¬ ('{' = c) := fun hh => h1 hh.symm
    rw [List.cons_append, replaceGo_zero_cons,
      if_neg (ne_true_of_eq_false (by simp [leadsWith, hno])), ih ha2,
      List.cons_append]

/-- The `"{{}}" -> "{}"` replace is the identity on brace-free lists. -/
theorem replaceGo_pat4_braceFree_id {a : List Char}
    (ha : braceFree a = true) :
    replaceGo ['{', '{', '}', '}'] ['{', '}'] 0 a = a := by
  have h := replaceGo_pat4_braceFree_front ha []
  rw [show replaceGo ['{', '{', '}', '}'] ['{', '}'] 0 ([] : List Char) = []
    from rfl, List.append_nil] at h
  exact h

/-- The `"{{}}" -> "{}"` replace fires exactly once at a `"{{}}"` run. -/
theorem replaceGo_pat4_slot (l : List Char) :
    replaceGo ['{', '{', '}', '}'] ['{', '}'] 0 ('{' :: '{' :: '}' :: '}' :: l) =
      '{' :: '}' :: replaceGo ['{', '{', '}', '}'] ['{', '}'] 0 l := by
  have ht : leadsWith ['{', '{', '}', '}'] ('{' :: '{' :: '}' :: '}' :: l)
      = true := by
    simp [leadsWith]
  rw [replaceGo_zero_cons, if_pos ht]
  show ['{', '}'] ++ replaceGo ['{', '{', '}', '}'] ['{', '}'] 3
    ('{' :: '}' :: '}' :: l) = _
  rw [replaceGo_skip_cons, replaceGo_skip_cons, replaceGo_skip_cons]
  rfl

/-- The escape pre-pass is the identity on a well-formed three-slot
template with brace-free segments. -/
theorem tocEscape_slots (t0 t1 t2 t3 : List Char)
    (h0 : braceFree t0 = true) (h1 : braceFree t1 = true)
    (h2 : braceFree t2 = true) (h3 : braceFree t3 = true) :
    tocEscape (t0 ++ '{' :: '}' :: (t1 ++ '{' :: '}' :: (t2 ++ '{' :: '}' :: t3)))
      = t0 ++ '{' :: '}' :: (t1 ++ '{' :: '}' :: (t2 ++ '{' :: '}' :: t3)) := by
  unfold tocEscape
  rw [dblBrace_eq_two_replaces]
  have hd : dblBrace (t0 ++ '{' :: '}' :: (t1 ++ '{' :: '}' ::
      (t2 ++ '{' :: '}' :: t3))) =
      t0 ++ '{' :: '{' :: '}' :: '}' :: (t1 ++ '{' :: '{' :: '}' :: '}' ::
        (t2 ++ '{' :: '{' :: '}' :: '}' :: t3)) := by
    unfold dblBrace
    rw [expandEach_append, expandEach_cons, expandEach_cons,
      expandEach_append, expandEach_cons, expandEach_cons,
      expandEach_append, expandEach_cons, expandEach_cons]
    show dblBrace t0 ++ _ = _
    rw [dblBrace_braceFree h0]
    show _ ++ ('{' :: '{' :: ('}' :: '}' :: (dblBrace t1 ++ _))) = _
    rw [dblBrace_braceFree h1]
    show _ ++ ('{' :: '{' :: ('}' :: '}' :: (_ ++ ('{' :: '{' :: ('}' :: '}' ::
      (dblBrace t2 ++ _)))))) = _
    rw [dblBrace_braceFree h2]
    show _ ++ ('{' :: '{' :: ('}' :: '}' :: (_ ++ ('{' :: '{' :: ('}' :: '}' ::
      (_ ++ ('{' :: '{' :: ('}' :: '}' :: dblBrace t3)))))))) = _
    rw [dblBrace_braceFree h3]
  rw [hd]
  unfold pyReplace
  rw [if_neg (by simp)]
  rw [replaceGo_pat4_braceFree_front h0, replaceGo_pat4_slot,
    replaceGo_pat4_braceFree_front h1, replaceGo_pat4_slot,
    replaceGo_pat4_braceFree_front h2, replaceGo_pat4_slot,
    replaceGo_pat4_braceFree_id h3]

/-- Format equation: doubled open brace. -/
theorem pyFormatGo_open_open (args : List (List Char)) (rest : List Char) :
    pyFormatGo args ('{' :: '{' :: rest) =
      (pyFormatGo args rest).map (fun r => '{' :: r) := rfl

/-- Format equation: a `{}` slot consumes the next argument. -/
theorem pyFormatGo_slot (a : List Char) (tl : List (List Char))
    (rest : List Char) :
    pyFormatGo (a :: tl) ('{' :: '}' :: rest) =
      (pyFormatGo tl rest).map (fun r => a ++ r) := rfl

/-- Format equation: doubled close brace. -/
theorem pyFormatGo_close_close (args : List (List Char)) (rest : List Char) :
    pyFormatGo args ('}' :: '}' :: rest) =
      (pyFormatGo args rest).map (fun r => '}' :: r) := rfl

/-- Format equation: a plain character is copied. -/
theorem pyFormatGo_other (args : List (List Char)) {c : Char}
    (h1 : ¬ c = '{') (h2 : ¬ c = '}') (d : Char) (rest : List Char) :
    pyFormatGo args (c :: d :: rest) =
      (pyFormatGo args (d :: rest)).map (fun r => c :: r) := by
  simp only [pyFormatGo]
  rw [if_neg h1, if_neg h2]

/-- Format equation: a final plain character is copied. -/
theorem pyFormatGo_single (args : List (List Char)) {c : Char}
    (h1 : ¬ c = '{') (h2 : ¬ c = '}') :
    pyFormatGo args [c] = some [c] := by
  simp only [pyFormatGo]
  rw [if_neg (not_or.2 ⟨h1, h2⟩)]

/-- `encBrace` never produces the empty list. -/
theorem encBrace_ne_nil (c : Char) : encBrace c ≠ [] := by
  unfold encBrace
  by_cases h1 : c = '{' <;> by_cases h2 : c = '}' <;> simp [h1, h2]

/-- Doubling an empty source is the only way to get an empty result. -/
theorem dblBrace_eq_nil {r : List Char} (h : dblBrace r = []) : r = [] := by
  cases r with
  | nil => rfl
  | cons d r2 =>
    rw [dblBrace_cons] at h
    exact absurd (List.append_eq_nil.1 h).1 (encBrace_ne_nil d)

/-- Formatting a doubled template undoes the doubling, consumes no
arguments and never errors. -/
theorem pyFormatGo_dbl (args : List (List Char)) (t : List Char) :
    pyFormatGo args (dblBrace t) = some t := by
  induction t with
  | nil => rfl
  | cons c r ih =>
    rw [dblBrace_cons]
    by_cases h1 : c = '{'
    · subst h1
      show pyFormatGo args ('{' :: '{' :: dblBrace r) = _
      rw [pyFormatGo_open_open, ih]
      rfl
    · by_cases h2 : c = '}'
      · subst h2
        show pyFormatGo args ('}' :: '}' :: dblBrace r) = _
        rw [pyFormatGo_close_close, ih]
        rfl
      · have he : encBrace c = [c] := by
          unfold encBrace
          rw [if_neg h1, if_neg h2]
        rw [he, List.singleton_append]
        cases hdr : dblBrace r with
        | nil =>
          rw [dblBrace_eq_nil hdr, pyFormatGo_single args h1 h2]
        | cons d rest2 =>
          rw [pyFormatGo_other args h1 h2 d rest2, ← hdr, ih]
          rfl

/-- Formatting walks over a brace-free prefix. -/
theorem pyFormatGo_braceFree_front (args : List (List Char)) (l : List Char) :
    ∀ a : List Char, braceFree a = true →
      pyFormatGo args (a ++ l) = (pyFormatGo args l).map (fun r => a ++ r) := by
  intro a
  induction a with
  | nil =>
    intro _
    rw [List.nil_append]
    cases pyFormatGo args l <;> rfl
  | cons c a2 ih =>
    intro ha
    obtain ⟨⟨h1, h2⟩, ha2⟩ := braceFree_cons_iff.1 ha
    rw [List.cons_append]
    cases h2l : a2 ++ l with
    | nil =>
      obtain ⟨ha2n, hln⟩ := List.append_eq_nil.1 h2l
      subst ha2n
      subst hln
      rw [pyFormatGo_single args h1 h2]
      rfl
    | cons d rest2 =>
      rw [pyFormatGo_other args h1 h2 d rest2, ← h2l, ih ha2]
      cases pyFormatGo args l <;> rfl

/-- Formatting is the identity on a brace-free template. -/
theorem pyFormatGo_braceFree_id (args : List (List Char)) {a : List Char}
    (ha : braceFree a = true) :
    pyFormatGo args a = some a := by
  have h := pyFormatGo_braceFree_front args [] a ha
  rw [List.append_nil] at h
  rw [h, show pyFormatGo args [] = some [] from rfl]
  simp

/-- Formatting a three-slot template with brace-free segments substitutes
the three arguments positionally, in order. -/
theorem pyFormatGo_slots3 (h li ts t0 t1 t2 t3 : List Char)
    (h0 : braceFree t0 = true) (h1 : braceFree t1 = true)
    (h2 : braceFree t2 = true) (h3 : braceFree t3 = true) :
    pyFormatGo [h, li, ts]
        (t0 ++ '{' :: '}' :: (t1 ++ '{' :: '}' :: (t2 ++ '{' :: '}' :: t3)))
      = some (t0 ++ (h ++ (t1 ++ (li ++ (t2 ++ (ts ++ t3)))))) := by
  rw [pyFormatGo_braceFree_front _ _ t0 h0, pyFormatGo_slot,
    pyFormatGo_braceFree_front _ _ t1 h1, pyFormatGo_slot,
    pyFormatGo_braceFree_front _ _ t2 h2, pyFormatGo_slot,
    pyFormatGo_braceFree_id _ h3]
  rfl

/-- Formatting a one-slot template with brace-free segments substitutes
its single argument. -/
theorem pyFormatGo_slot1 (ts t0 t1 : List Char)
    (h0 : braceFree t0 = true) (h1 : braceFree t1 = true) :
    pyFormatGo [ts] (t0 ++ '{' :: '}' :: t1) = some (t0 ++ (ts ++ t1)) := by
  rw [pyFormatGo_braceFree_front _ _ t0 h0, pyFormatGo_slot,
    pyFormatGo_braceFree_id _ h1]
  rfl

/-- C8 amended: the TOC builder's escape-then-substitute pass leaves every
literal brace that is not part of a `{}` slot verbatim and never raises —
on a template with no `{}` run the output is the template itself — and on
a well-formed template its three slots stay active and receive, in order,
the homepage relative path, the navigation markup and the timestamp. The
homepage builder substitutes positionally *without* escaping: its slot
receives the timestamp, but (see the counterexample) a literal unescaped
brace in a homepage template is a formatting error. -/
theorem template_escaping (u t0 t1 t2 t3 : List Char) (home links ts : String)
    (hu : hasRun u ['{', '}'] = false)
    (h0 : braceFree t0 = true) (h1 : braceFree t1 = true)
    (h2 : braceFree t2 = true) (h3 : braceFree t3 = true) :
    tocRender ⟨u⟩ home links ts = some ⟨u⟩
    ∧ tocRender ⟨t0 ++ '{' :: '}' :: (t1 ++ '{' :: '}' :: (t2 ++ '{' :: '}' :: t3))⟩
        home links ts
      = some ⟨t0 ++ (home.data ++ (t1 ++ (links.data ++ (t2 ++ (ts.data ++ t3)))))⟩
    ∧ homepageRender ⟨t0 ++ '{' :: '}' :: t1⟩ ts = some ⟨t0 ++ (ts.data ++ t1)⟩ := by
  refine ⟨?_, ?_, ?_⟩
  · unfold tocRender
    show (pyFormatGo _ (tocEscape u)).map _ = _
    rw [tocEscape_noSlot hu, pyFormatGo_dbl]
    rfl
  · unfold tocRender
    show (pyFormatGo [home.data, links.data, ts.data]
      (tocEscape (t0 ++ '{' :: '}' :: (t1 ++ '{' :: '}' ::
        (t2 ++ '{' :: '}' :: t3))))).map _ = _
    rw [tocEscape_slots t0 t1 t2 t3 h0 h1 h2 h3,
      pyFormatGo_slots3 home.data links.data ts.data t0 t1 t2 t3 h0 h1 h2 h3]
    rfl
  · unfold homepageRender
    show (pyFormatGo [ts.data] (t0 ++ '{' :: '}' :: t1)).map _ = _
    rw [pyFormatGo_slot1 ts.data t0 t1 h0 h1]
    rfl

/-- C8 counterexample: the homepage builder performs no brace escaping, so
a homepage template with a literal `{` raises a formatting error
(`ValueError` in Python, `none` here), while the TOC builder renders the
same template verbatim. -/
theorem homepage_literal_brace_raises :
    homepageRender "a\x7bb" "X" = none
    ∧ tocRender "a\x7bb" "h" "l" "t" = some "a\x7bb" :=
  ⟨rfl, rfl⟩

/-- Closed instance of `template_escaping` at concrete templates. -/
theorem template_escaping_witness :
    hasRun "nav \x7b open \x7d".data ['{', '}'] = false
    ∧ braceFree "A".data = true ∧ braceFree "B".data = true
    ∧ braceFree "C".data = true ∧ braceFree "D".data = true
    ∧ (tocRender ⟨"nav \x7b open \x7d".data⟩ "h" "l" "t"
        = some ⟨"nav \x7b open \x7d".data⟩
      ∧ tocRender ⟨"A".data ++ '{' :: '}' :: ("B".data ++ '{' :: '}' ::
          ("C".data ++ '{' :: '}' :: "D".data))⟩ "h" "l" "t"
        = some ⟨"A".data ++ ("h".data ++ ("B".data ++ ("l".data ++
            ("C".data ++ ("t".data ++ "D".data)))))⟩
      ∧ homepageRender ⟨"A".data ++ '{' :: '}' :: "B".data⟩ "t"
        = some ⟨"A".data ++ ("t".data ++ "B".data)⟩) :=
  ⟨by decide, by decide, by decide, by decide, by decide,
    template_escaping "nav \x7b open \x7d".data "A".data "B".data "C".data
      "D".data "h" "l" "t" (by decide) (by decide) (by decide) (by decide)
      (by decide)⟩

/-! ## C1: the rename grammar of the libs stage -/

/-- A pattern is at the head of itself followed by anything. -/
theorem leadsWith_append_self (p x : List Char) :
    leadsWith p (p ++ x) = true := by
  induction p with
  | nil => rfl
  | cons a q ih => simp [leadsWith, ih]

/-- A successful head match splits off the pattern. -/
theorem leadsWith_eq_append {p l : List Char}
    (h : leadsWith p l = true) : l = p ++ l.drop p.length := by
  induction p generalizing l with
  | nil => simp
  | cons a q ih =>
    cases l with
    | nil => simp [leadsWith] at h
    | cons c r =>
      simp only [leadsWith, Bool.and_eq_true, decide_eq_true_eq] at h
      obtain ⟨hac, hq⟩ := h
      subst hac
      rw [List.cons_append, List.length_cons, List.drop_succ_cons]
      exact congrArg (a :: ·) (ih hq)

/-- Definitional equation of `wsRunLen` at a cons. -/
theorem wsRunLen_cons (c : Char) (r : List Char) :
    wsRunLen (c :: r) = if isPyWS c = true then wsRunLen r + 1 else 0 := rfl

/-- `wsRunLen` over a whitespace block followed by anything. -/
theorem wsRunLen_append_ws {w : List Char} (x : List Char)
    (hw : ∀ c ∈ w, isPyWS c = true) :
    wsRunLen (w ++ x) = w.length + wsRunLen x := by
  induction w with
  | nil => simp
  | cons c r ih =>
    rw [List.cons_append, wsRunLen_cons,
      if_pos (hw c (List.mem_cons_self c r)),
      ih fun d hd => hw d (List.mem_cons_of_mem c hd), List.length_cons]
    omega

/-- `wsRunLen` stops at a non-whitespace head. -/
theorem wsRunLen_head_not_ws {c : Char} (r : List Char)
    (h : isPyWS c = false) : wsRunLen (c :: r) = 0 := by
  unfold wsRunLen
  rw [if_neg (ne_true_of_eq_false h)]

/-- The whitespace run is inside the list. -/
theorem wsRunLen_le_length (l : List Char) : wsRunLen l ≤ l.length := by
  induction l with
  | nil => exact Nat.le_refl 0
  | cons c r ih =>
    unfold wsRunLen
    by_cases hc : isPyWS c = true
    · rw [if_pos hc, List.length_cons]
      omega
    · rw [if_neg hc]
      exact Nat.zero_le _

/-- Chars inside the whitespace run are whitespace. -/
theorem ws_take {l : List Char} :
    ∀ {j}, j ≤ wsRunLen l → ∀ c ∈ l.take j, isPyWS c = true := by
  induction l with
  | nil =>
    intro j _ c hc
    simp at hc
  | cons a r ih =>
    intro j hj c hc
    cases j with
    | zero => simp at hc
    | succ k =>
      unfold wsRunLen at hj
      by_cases ha : isPyWS a = true
      · rw [if_pos ha] at hj
        rw [List.take_succ_cons] at hc
        rcases List.mem_cons.1 hc with hh | hh
        · exact hh ▸ ha
        · exact ih (by omega) c hh
      · rw [if_neg ha] at hj
        omega

/-- What a successful `pickTarget` returns. -/
theorem pickTarget_sound {l t : List Char} :
    ∀ {k}, pickTarget l k = some t →
      ∃ k2, 2 ≤ k2 ∧ k2 ≤ k ∧ t = l.drop k2 ∧ t ≠ [] ∧ '\n' ∉ t := by
  intro k
  induction k with
  | zero => intro h; cases h
  | succ n ih =>
    intro h
    cases n with
    | zero => cases h
    | succ m =>
      have heq : pickTarget l (m + 2) =
          if (l.drop (m + 2)).isEmpty || (l.drop (m + 2)).contains '\n' then
            pickTarget l (m + 1)
          else some (l.drop (m + 2)) := rfl
      rw [heq] at h
      by_cases hcond :
          ((l.drop (m + 2)).isEmpty || (l.drop (m + 2)).contains '\n') = true
      · rw [if_pos hcond] at h
        obtain ⟨k2, h2, hk, ht, hne, hnl⟩ := ih h
        exact ⟨k2, h2, by omega, ht, hne, hnl⟩
      · rw [if_neg hcond] at h
        injection h with h
        subst h
        rcases Bool.or_eq_false_iff.1 (Bool.eq_false_iff.2 hcond) with ⟨he, hc⟩
        refine ⟨m + 2, by omega, Nat.le_refl _, rfl, ?_, ?_⟩
        · intro hh
          rw [hh] at he
          simp at he
        · exact containsChar_false.1 hc

/-- When a valid cut exists, `pickTarget` finds one. -/
theorem pickTarget_isSome (l : List Char) :
    ∀ (k k2 : Nat), 2 ≤ k2 → k2 ≤ k → l.drop k2 ≠ [] → '\n' ∉ l.drop k2 →
      (pickTarget l k).isSome = true := by
  intro k
  induction k with
  | zero =>
    intro k2 h2 hk _ _
    omega
  | succ n ih =>
    intro k2 h2 hk hne hnl
    cases n with
    | zero => omega
    | succ m =>
      have heq : pickTarget l (m + 2) =
          if (l.drop (m + 2)).isEmpty || (l.drop (m + 2)).contains '\n' then
            pickTarget l (m + 1)
          else some (l.drop (m + 2)) := rfl
      rw [heq]
      by_cases hcond :
          ((l.drop (m + 2)).isEmpty || (l.drop (m + 2)).contains '\n') = true
      · rw [if_pos hcond]
        have hlt : k2 ≤ m + 1 := by
          by_contra hgt
          have : k2 = m + 2 := by omega
          subst this
          rcases Bool.or_eq_true_iff.1 hcond with hh | hh
          · exact hne (by simpa using hh)
          · exact hnl (containsChar_iff.1 hh)
        exact ih k2 h2 hlt hne hnl
      · rw [if_neg hcond]
        rfl

/-- What a successful `matchTail` returns: a whitespace run of length at
least 2, a keyword, another whitespace run of length at least 2, and the
nonempty newline-free target. -/
theorem matchTail_sound {l t : List Char} (h : matchTail l = some t) :
    ∃ w1 kw w2, l = w1 ++ (kw ++ (w2 ++ t)) ∧ 2 ≤ w1.length ∧ 2 ≤ w2.length
      ∧ (∀ c ∈ w1, isPyWS c = true) ∧ (∀ c ∈ w2, isPyWS c = true)
      ∧ (kw = kwAS ∨ kw = kwWN) ∧ t ≠ [] ∧ '\n' ∉ t := by
  simp only [matchTail] at h
  by_cases hm : wsRunLen l < 2
  · rw [if_pos hm] at h
    cases h
  · rw [if_neg hm] at h
    by_cases hAS : leadsWith kwAS (l.drop (wsRunLen l)) = true
    · rw [if_pos hAS] at h
      obtain ⟨k2, hk2, hkle, ht, hne, hnl⟩ := pickTarget_sound h
      refine ⟨l.take (wsRunLen l), kwAS,
        ((l.drop (wsRunLen l)).drop 2).take k2, ?_, ?_, ?_,
        ws_take (Nat.le_refl _), ws_take hkle, Or.inl rfl, hne, hnl⟩
      · conv_lhs => rw [← List.take_append_drop (wsRunLen l) l]
        congr 1
        conv_lhs => rw [leadsWith_eq_append hAS]
        congr 1
        conv_lhs =>
          rw [show (l.drop (wsRunLen l)).drop kwAS.length
            = (l.drop (wsRunLen l)).drop 2 from rfl,
            ← List.take_append_drop k2 ((l.drop (wsRunLen l)).drop 2)]
        rw [← ht]
      · rw [List.length_take]
        have := wsRunLen_le_length l
        omega
      · rw [List.length_take]
        have hle : k2 ≤ ((l.drop (wsRunLen l)).drop 2).length :=
          le_trans hkle (wsRunLen_le_length _)
        omega
    · rw [if_neg hAS] at h
      by_cases hWN : leadsWith kwWN (l.drop (wsRunLen l)) = true
      · rw [if_pos hWN] at h
        obtain ⟨k2, hk2, hkle, ht, hne, hnl⟩ := pickTarget_sound h
        refine ⟨l.take (wsRunLen l), kwWN,
          ((l.drop (wsRunLen l)).drop 9).take k2, ?_, ?_, ?_,
          ws_take (Nat.le_refl _), ws_take hkle, Or.inr rfl, hne, hnl⟩
        · conv_lhs => rw [← List.take_append_drop (wsRunLen l) l]
          congr 1
          conv_lhs => rw [leadsWith_eq_append hWN]
          congr 1
          conv_lhs =>
            rw [show (l.drop (wsRunLen l)).drop kwWN.length
              = (l.drop (wsRunLen l)).drop 9 from rfl,
              ← List.take_append_drop k2 ((l.drop (wsRunLen l)).drop 9)]
          rw [← ht]
        · rw [List.length_take]
          have := wsRunLen_le_length l
          omega
        · rw [List.length_take]
          have hle : k2 ≤ ((l.drop (wsRunLen l)).drop 9).length :=
            le_trans hkle (wsRunLen_le_length _)
          omega
      · rw [if_neg hWN] at h
        cases h

/-- After the keyword, `pickTarget` always finds a valid cut of the
whitespace-run/target block. -/
theorem pickTarget_ws_block {w2 t : List Char}
    (hw2 : ∀ c ∈ w2, isPyWS c = true) (hl2 : 2 ≤ w2.length)
    (ht : t ≠ []) (hnl : '\n' ∉ t) :
    (pickTarget (w2 ++ t) (wsRunLen (w2 ++ t))).isSome = true := by
  have hM : wsRunLen (w2 ++ t) = w2.length + wsRunLen t := wsRunLen_append_ws _ hw2
  have htlen : 1 ≤ t.length := List.length_pos.2 ht
  by_cases hcase : wsRunLen t < t.length
  · apply pickTarget_isSome (w2 ++ t) (wsRunLen (w2 ++ t))
      (w2.length + wsRunLen t)
    · omega
    · omega
    · rw [List.drop_append]
      intro hdrop
      have := List.drop_eq_nil_iff.1 hdrop
      omega
    · rw [List.drop_append]
      exact fun hmem => hnl (List.mem_of_mem_drop hmem)
  · apply pickTarget_isSome (w2 ++ t) (wsRunLen (w2 ++ t))
      (w2.length + (t.length - 1))
    · omega
    · omega
    · rw [List.drop_append]
      intro hdrop
      have := List.drop_eq_nil_iff.1 hdrop
      omega
    · rw [List.drop_append]
      exact fun hmem => hnl (List.mem_of_mem_drop hmem)

/-- A grammar-shaped tail always matches. -/
theorem matchTail_complete {w1 kw w2 t : List Char}
    (hw1 : ∀ c ∈ w1, isPyWS c = true) (hl1 : 2 ≤ w1.length)
    (hkw : kw = kwAS ∨ kw = kwWN)
    (hw2 : ∀ c ∈ w2, isPyWS c = true) (hl2 : 2 ≤ w2.length)
    (ht : t ≠ []) (hnl : '\n' ∉ t) :
    (matchTail (w1 ++ (kw ++ (w2 ++ t)))).isSome = true := by
  have hkw_head : wsRunLen (kw ++ (w2 ++ t)) = 0 := by
    rcases hkw with hh | hh <;> subst hh
    · exact wsRunLen_head_not_ws _ (by decide)
    · exact wsRunLen_head_not_ws _ (by decide)
  have hm : wsRunLen (w1 ++ (kw ++ (w2 ++ t))) = w1.length := by
    rw [wsRunLen_append_ws _ hw1, hkw_head]
    omega
  simp only [matchTail]
  rw [hm, if_neg (by omega), List.drop_left]
  rcases hkw with hh | hh <;> subst hh
  · rw [if_pos (leadsWith_append_self kwAS _)]
    rw [show (kwAS ++ (w2 ++ t)).drop 2 = w2 ++ t from rfl]
    exact pickTarget_ws_block hw2 hl2 ht hnl
  · have hAS : leadsWith kwAS (kwWN ++ (w2 ++ t)) = false := by
      simp [kwAS, kwWN, leadsWith]
    rw [if_neg (ne_true_of_eq_false hAS),
      if_pos (leadsWith_append_self kwWN _)]
    rw [show (kwWN ++ (w2 ++ t)).drop 9 = w2 ++ t from rfl]
    exact pickTarget_ws_block hw2 hl2 ht hnl

/-- Definitional equation of the greedy search at a successor length. -/
theorem asMatchFrom_succ (l : List Char) (k : Nat) :
    asMatchFrom l (k + 1) =
      if (l.take (k + 1)).contains '\n' = true then asMatchFrom l k
      else
        match matchTail (l.drop (k + 1)) with
        | some t => some (l.take (k + 1), t)
        | none => asMatchFrom l k := rfl

/-- What a successful greedy search returns: some prefix length `j` whose
remainder matches the tail. -/
theorem asMatchFrom_sound {l p t : List Char} :
    ∀ {k}, asMatchFrom l k = some (p, t) →
      ∃ j, 1 ≤ j ∧ p = l.take j ∧ matchTail (l.drop j) = some t := by
  intro k
  induction k with
  | zero =>
    intro h
    cases h
  | succ n ih =>
    intro h
    rw [asMatchFrom_succ] at h
    by_cases hcon : (l.take (n + 1)).contains '\n' = true
    · rw [if_pos hcon] at h
      exact ih h
    · rw [if_neg hcon] at h
      rcases hmt : matchTail (l.drop (n + 1)) with _ | t2 <;> rw [hmt] at h
      · exact ih h
      · injection h with h2
        have hp : l.take (n + 1) = p := congrArg Prod.fst h2
        have ht2 : t2 = t := congrArg Prod.snd h2
        exact ⟨n + 1, by omega, hp.symm, by rw [hmt, ht2]⟩

/-- When some newline-free prefix length has a matching tail, the greedy
search succeeds. -/
theorem asMatchFrom_isSome (l : List Char) :
    ∀ (k j : Nat), 1 ≤ j → j ≤ k → (l.take j).contains '\n' = false →
      (matchTail (l.drop j)).isSome = true →
      (asMatchFrom l k).isSome = true := by
  intro k
  induction k with
  | zero =>
    intro j h1 hk _ _
    omega
  | succ n ih =>
    intro j h1 hk hnl hmt
    rw [asMatchFrom_succ]
    by_cases hcon : (l.take (n + 1)).contains '\n' = true
    · rw [if_pos hcon]
      have hj : j ≤ n := by
        by_contra hgt
        have hj1 : j = n + 1 := by omega
        subst hj1
        rw [hnl] at hcon
        cases hcon
      exact ih j h1 hj hnl hmt
    · rw [if_neg hcon]
      rcases hmt2 : matchTail (l.drop (n + 1)) with _ | t2
      · have hj : j ≤ n := by
          by_contra hgt
          have hj1 : j = n + 1 := by omega
          subst hj1
          rw [hmt2] at hmt
          cases hmt
        simp only [hmt2]
        exact ih j h1 hj hnl hmt
      · simp only [hmt2]
        rfl

/-- A successful `fullmatch` exhibits a whitespace-grammar decomposition
whose prefix is group 1 and whose target is group 2. -/
theorem asFullmatch_sound {l p t : List Char}
    (h : asFullmatch l = some (p, t)) :
    ∃ w1 kw w2, RenameSplit (fun c => isPyWS c = true) l p w1 kw w2 t := by
  obtain ⟨j, hj1, hp, hmt⟩ := asMatchFrom_sound h
  obtain ⟨w1, kw, w2, hdec, hl1, hl2, hw1, hw2, hkw, hne, -⟩ :=
    matchTail_sound hmt
  have hlj : l = l.take j ++ (w1 ++ (kw ++ (w2 ++ t))) := by
    conv_lhs => rw [← List.take_append_drop j l]
    rw [hdec]
  have hpne : p ≠ [] := by
    cases l with
    | nil =>
      rw [show matchTail (([] : List Char).drop j) = none from by
        cases j <;> rfl] at hmt
      cases hmt
    | cons c r =>
      subst hp
      cases j with
      | zero => omega
      | succ m =>
        rw [List.take_succ_cons]
        exact List.cons_ne_nil c _
  refine ⟨w1, kw, w2, ?_, hpne, hne, hl1, hl2, hw1, hw2, hkw⟩
  rw [← hp] at hlj
  simpa [List.append_assoc] using hlj

/-- C1 amended, with "2-or-more spaces" weakened to "2-or-more whitespace
characters" (the code's `\s{2,}`): for every newline-free substituted lib
string, the code's regex matches exactly when the whitespace rename
grammar matches; on a match the resolution uses the matched prefix as
source, the basename of the matched target as display name and
`target_dir/<target>.html` as output path, and the matched groups form a
grammar decomposition; on a non-match the full string is the source, the
display name is unset and the output path comes from the part before the
first `"::"`. The claim's two concrete examples hold as stated. -/
theorem lib_rename_resolution (td s : String)
    (hnl : s.data.contains '\n' = false) :
    ((∃ pt, asFullmatch s.data = some pt) ↔ wsRename s.data)
    ∧ (∀ p t, asFullmatch s.data = some (p, t) →
        resolveLib td s = ⟨⟨p⟩, some (pyBasename ⟨t⟩),
          pyJoin td ⟨t ++ ".html".data⟩⟩
        ∧ ∃ w1 kw w2, RenameSplit (fun c => isPyWS c = true) s.data p w1 kw w2 t)
    ∧ (asFullmatch s.data = none →
        resolveLib td s = ⟨s, none,
          pyJoin td ⟨beforeFirstRun [':', ':'] s.data ++ ".html".data⟩⟩)
    ∧ resolveLib "/t" "SomeLib::arg1  AS  MyLib"
        = ⟨"SomeLib::arg1", some "MyLib", "/t/MyLib.html"⟩
    ∧ resolveLib "/t" "SomeLib::arg1" = ⟨"SomeLib::arg1", none, "/t/SomeLib.html"⟩ := by
  refine ⟨⟨?_, ?_⟩, ?_, ?_, by decide, by decide⟩
  · rintro ⟨⟨p, t⟩, h⟩
    obtain ⟨w1, kw, w2, hr⟩ := asFullmatch_sound h
    exact ⟨p, w1, kw, w2, t, hr⟩
  · rintro ⟨p, w1, kw, w2, t, heq, hpne, htne, hl1, hl2, hw1, hw2, hkw⟩
    have heq' : s.data = p ++ (w1 ++ (kw ++ (w2 ++ t))) := by
      rw [heq, List.append_assoc, List.append_assoc, List.append_assoc]
    have hnl' : ('\n' : Char) ∉ s.data := containsChar_false.1 hnl
    have htnl : ('\n' : Char) ∉ t := fun hm =>
      hnl' (by
        rw [heq']
        exact List.mem_append_right p (List.mem_append_right w1
          (List.mem_append_right kw (List.mem_append_right w2 hm))))
    have htake : s.data.take p.length = p := by
      rw [heq']
      exact List.take_left p _
    have hdrop : s.data.drop p.length = w1 ++ (kw ++ (w2 ++ t)) := by
      rw [heq']
      exact List.drop_left p _
    have hjlen : p.length ≤ s.data.length := by
      rw [heq', List.length_append]
      omega
    have hsome := asMatchFrom_isSome s.data s.data.length p.length
      (by
        rcases p with _ | ⟨c, r⟩
        · exact absurd rfl hpne
        · simp)
      hjlen
      (by
        rw [htake]
        exact containsChar_false.2 fun hm => hnl' (heq' ▸ List.mem_append_left _ hm))
      (by
        rw [hdrop]
        exact matchTail_complete hw1 hl1 hkw hw2 hl2 htne htnl)
    rcases hfm : asFullmatch s.data with _ | pt
    · have h2 : asMatchFrom s.data s.data.length = none := hfm
      rw [h2] at hsome
      cases hsome
    · exact ⟨pt, rfl⟩
  · intro p t h
    constructor
    · unfold resolveLib
      rw [h]
    · exact asFullmatch_sound h
  · intro h
    unfold resolveLib
    rw [h]

/-- C1 counterexample: the lib string `"A\t\tAS\t\tB"` does not match the
claim's rename grammar (its separators are tabs, not spaces), yet the code
treats it as a rename — its source becomes `"A"`, not the full string as
the claim's non-matching branch requires. -/
theorem lib_rename_spaces_counterexample :
    ¬ spacesRename "A\t\tAS\t\tB".data
    ∧ resolveLib "/t" "A\t\tAS\t\tB" = ⟨"A", some "B", "/t/B.html"⟩
    ∧ ("A" : String) ≠ "A\t\tAS\t\tB" := by
  refine ⟨?_, by decide, by decide⟩
  rintro ⟨p, w1, kw, w2, t, heq, -, -, hl1, -, hw1, -, -⟩
  have hne : w1 ≠ [] := by
    intro hh
    rw [hh] at hl1
    simp at hl1
  obtain ⟨c, hc⟩ := List.exists_mem_of_ne_nil w1 hne
  have hceq : c = ' ' := hw1 c hc
  have hsp : (' ' : Char) ∈ "A\t\tAS\t\tB".data := by
    rw [heq]
    exact List.mem_append_left _ (List.mem_append_left _
      (List.mem_append_left _ (List.mem_append_right _ (hceq ▸ hc))))
  exact absurd hsp (by decide)

/-- Closed instance of `lib_rename_resolution` at the claim's example. -/
theorem lib_rename_resolution_witness :
    "SomeLib::arg1  AS  MyLib".data.contains '\n' = false
    ∧ (((∃ pt, asFullmatch "SomeLib::arg1  AS  MyLib".data = some pt) ↔
          wsRename "SomeLib::arg1  AS  MyLib".data)
      ∧ (∀ p t, asFullmatch "SomeLib::arg1  AS  MyLib".data = some (p, t) →
          resolveLib "/t" "SomeLib::arg1  AS  MyLib" = ⟨⟨p⟩, some (pyBasename ⟨t⟩),
            pyJoin "/t" ⟨t ++ ".html".data⟩⟩
          ∧ ∃ w1 kw w2, RenameSplit (fun c => isPyWS c = true)
              "SomeLib::arg1  AS  MyLib".data p w1 kw w2 t)
      ∧ (asFullmatch "SomeLib::arg1  AS  MyLib".data = none →
          resolveLib "/t" "SomeLib::arg1  AS  MyLib" = ⟨"SomeLib::arg1  AS  MyLib",
            none, pyJoin "/t" ⟨beforeFirstRun [':', ':']
              "SomeLib::arg1  AS  MyLib".data ++ ".html".data⟩⟩)
      ∧ resolveLib "/t" "SomeLib::arg1  AS  MyLib"
          = ⟨"SomeLib::arg1", some "MyLib", "/t/MyLib.html"⟩
      ∧ resolveLib "/t" "SomeLib::arg1"
          = ⟨"SomeLib::arg1", none, "/t/SomeLib.html"⟩) :=
  ⟨by decide, lib_rename_resolution "/t" "SomeLib::arg1  AS  MyLib" (by decide)⟩

end LibToc
